import Mathlib

/-!
Shallow embedding of the `rush` chess core (`src/chess/src/board.rs`) and the
parts of the data model it depends on.  The primitive modules (`bitboard.rs`,
`square.rs`, `moves.rs`, `attacks.rs`, `zobrist.rs`, `castle_rights.rs`,
`en_passant.rs`, `cuckoo.rs`) are not present under `src/`; where a definition
below comes from one of those missing modules it is modelled from the spec and
its doc comment says so.  Everything taken from `board.rs` is translated
line-by-line; Rust panics (`unwrap`, index out of bounds, `unreachable`) are
modelled by `Option`, and machine integers by `Nat` reduced modulo `2 ^ w`
where overflow matters.
-/

namespace Rush

/-- Modelled from the spec: `Color = {White, Black}` with index 0/1. -/
inductive Color where
  | White
  | Black
deriving DecidableEq, Repr, Fintype

/-- Modelled from the spec: `Color::idx`. -/
def Color.idx : Color → Nat
  | .White => 0
  | .Black => 1

/-- Modelled from the spec: `Color::invert`. -/
def Color.invert : Color → Color
  | .White => .Black
  | .Black => .White

/-- Modelled from the spec: piece kinds, indices 0..5. -/
inductive Piece where
  | Pawn
  | Rook
  | Knight
  | Bishop
  | Queen
  | King
deriving DecidableEq, Repr, Fintype

/-- Modelled from the spec: `Piece::idx`. -/
def Piece.idx : Piece → Nat
  | .Pawn => 0
  | .Rook => 1
  | .Knight => 2
  | .Bishop => 3
  | .Queen => 4
  | .King => 5

/-- Modelled from the spec: a square is an integer 0..63, a1 = 0, h1 = 7,
a8 = 56, h8 = 63. -/
abbrev Square := Fin 64

/-- Modelled from the spec: the file (x coordinate, 0..7) of a square. -/
def Square.x (sq : Square) : Nat := sq.val % 8

/-- Modelled from the spec: the rank (y coordinate, 0..7) of a square. -/
def Square.y (sq : Square) : Nat := sq.val / 8

/-- Modelled from the spec: `Square::from((x, y))`, total on in-range pairs. -/
def mkSq (x y : Nat) : Square := ⟨(y % 8) * 8 + x % 8, by omega⟩

/-- A bitboard is a 64-bit set of squares; we carry it as a `Nat` kept below
`2 ^ 64`. -/
abbrev BitBoard := Nat

/-- The all-ones 64-bit mask. -/
def MASK64 : Nat := 2 ^ 64 - 1

/-- Modelled from the spec: bitwise complement inside 64 bits. -/
def comp64 (b : Nat) : Nat := b ^^^ MASK64

/-- Modelled from the spec: membership of a square in a bitboard. -/
def bbContains (b : BitBoard) (sq : Square) : Bool := b.testBit sq.val

/-- Modelled from the spec: the bitboard holding a single square. -/
def bbSquare (sq : Square) : BitBoard := 2 ^ sq.val

/-- Modelled from the spec: population count of a bitboard. -/
def bbCount (b : BitBoard) : Nat :=
  ((List.range 64).filter (fun i => b.testBit i)).length

/-- Modelled from the spec: `BitBoard::empty`. -/
def bbEmpty (b : BitBoard) : Bool := b == 0

/-- Modelled from the spec: the squares of a bitboard, in lowest-bit-first
order, matching `iter_squares`. -/
def bbSquares (b : BitBoard) : List Square :=
  (List.finRange 64).filter (fun sq => bbContains b sq)

/-- Modelled from the spec: `as_square_unchecked`, the lowest set square of a
bitboard; on the empty bitboard the source is undefined (unchecked) and this
model answers square 0. -/
def asSquareUnchecked (b : BitBoard) : Square :=
  ((bbSquares b).head?).getD ⟨0, by omega⟩

/-- Modelled from the spec: the bitboard of the rank of a square (used by
`is_legal` through `ep_square.rank()`). -/
def rankBB (sq : Square) : BitBoard := 0xFF <<< (8 * sq.y)

/-- Step a square by a (dx, dy) offset, `none` when leaving the board. -/
def shiftSq (sq : Square) (dx dy : Int) : Option Square :=
  let nx : Int := (sq.x : Int) + dx
  let ny : Int := (sq.y : Int) + dy
  if h : 0 ≤ nx ∧ nx < 8 ∧ 0 ≤ ny ∧ ny < 8 then
    some ⟨(ny.toNat) * 8 + nx.toNat, by omega⟩
  else
    none

/-- Union of the single-square bitboards reachable by a list of offsets. -/
def offsetsBB (sq : Square) (offs : List (Int × Int)) : BitBoard :=
  offs.foldl (fun acc o =>
    match shiftSq sq o.1 o.2 with
    | some t => acc ||| bbSquare t
    | none => acc) 0

/-- Modelled from the spec: knight attack set. -/
def knightAttacks (sq : Square) : BitBoard :=
  offsetsBB sq [(1, 2), (2, 1), (2, -1), (1, -2), (-1, -2), (-2, -1), (-2, 1), (-1, 2)]

/-- Modelled from the spec: king attack set. -/
def kingAttacks (sq : Square) : BitBoard :=
  offsetsBB sq [(1, 0), (1, 1), (0, 1), (-1, 1), (-1, 0), (-1, -1), (0, -1), (1, -1)]

/-- Modelled from the spec: pawn capture squares for a pawn of the given color. -/
def pawnAttacks (c : Color) (sq : Square) : BitBoard :=
  match c with
  | .White => offsetsBB sq [(-1, 1), (1, 1)]
  | .Black => offsetsBB sq [(-1, -1), (1, -1)]

/-- Modelled from the spec: `pawn_push(color, sq)`. -/
def pawnPush (c : Color) (sq : Square) : Option Square :=
  match c with
  | .White => shiftSq sq 0 1
  | .Black => shiftSq sq 0 (-1)

/-- Modelled from the spec: `pawn_double_push(color, sq)`, only for pawns on
their starting rank (rank 2 for White, rank 7 for Black). -/
def pawnDoublePush (c : Color) (sq : Square) : Option Square :=
  match c with
  | .White => if sq.y = 1 then shiftSq sq 0 2 else none
  | .Black => if sq.y = 6 then shiftSq sq 0 (-2) else none

/-- Walk one ray from a square, collecting squares until (and including) the
first blocker of `occ`; fuel-driven to stay structural. -/
def rayWalk (occ : BitBoard) (dx dy : Int) : Nat → Square → BitBoard
  | 0, _ => 0
  | fuel + 1, sq =>
    match shiftSq sq dx dy with
    | none => 0
    | some t =>
      if bbContains occ t then bbSquare t
      else bbSquare t ||| rayWalk occ dx dy fuel t

/-- Modelled from the spec: blocker-aware rook attack set. -/
def rookAttacks (sq : Square) (occ : BitBoard) : BitBoard :=
  rayWalk occ 1 0 8 sq ||| rayWalk occ (-1) 0 8 sq |||
  rayWalk occ 0 1 8 sq ||| rayWalk occ 0 (-1) 8 sq

/-- Modelled from the spec: blocker-aware bishop attack set. -/
def bishopAttacks (sq : Square) (occ : BitBoard) : BitBoard :=
  rayWalk occ 1 1 8 sq ||| rayWalk occ (-1) 1 8 sq |||
  rayWalk occ 1 (-1) 8 sq ||| rayWalk occ (-1) (-1) 8 sq

/-- Modelled from the spec: queen attack set, rook or bishop. -/
def queenAttacks (sq : Square) (occ : BitBoard) : BitBoard :=
  rookAttacks sq occ ||| bishopAttacks sq occ

/-- The signum of the coordinate difference between two squares, giving the
direction of the line from `a` to `b`. -/
def dirTo (a b : Square) : Int × Int :=
  (Int.sign ((b.x : Int) - (a.x : Int)), Int.sign ((b.y : Int) - (a.y : Int)))

/-- Whether two distinct squares are aligned on a rank, file or diagonal. -/
def aligned (a b : Square) : Bool :=
  let dx : Int := (b.x : Int) - (a.x : Int)
  let dy : Int := (b.y : Int) - (a.y : Int)
  (a.val != b.val) && (dx == 0 || dy == 0 || dx.natAbs == dy.natAbs)

/-- Walk from `a` toward `b`, collecting the squares strictly between the two;
fuel-driven. -/
def betweenWalk (b : Square) (dx dy : Int) : Nat → Square → BitBoard
  | 0, _ => 0
  | fuel + 1, sq =>
    match shiftSq sq dx dy with
    | none => 0
    | some t =>
      if t = b then 0
      else bbSquare t ||| betweenWalk b dx dy fuel t

/-- Modelled from the spec: `BitBoard::between(a, b)`, the squares strictly
between two aligned squares, empty when not aligned. -/
def between (a b : Square) : BitBoard :=
  if aligned a b then betweenWalk b (dirTo a b).1 (dirTo a b).2 8 a else 0

/-- Modelled from the spec: `between_straight`, the between set restricted to
rank and file lines. -/
def betweenStraight (a b : Square) : BitBoard :=
  if a.x = b.x ∨ a.y = b.y then between a b else 0

/-- Modelled from the spec: `between_diagonal`, the between set restricted to
diagonal lines. -/
def betweenDiagonal (a b : Square) : BitBoard :=
  if ((b.x : Int) - (a.x : Int)).natAbs = ((b.y : Int) - (a.y : Int)).natAbs
  then between a b else 0

/-- Walk the full ray from `sq` in one direction, to the edge of the board. -/
def fullRay (dx dy : Int) : Nat → Square → BitBoard
  | 0, _ => 0
  | fuel + 1, sq =>
    match shiftSq sq dx dy with
    | none => 0
    | some t => bbSquare t ||| fullRay dx dy fuel t

/-- Modelled from the spec: `ray_mask(a, b)`, the full line through two
aligned squares (both included), else a mask containing only `b`. -/
def rayMask (a b : Square) : BitBoard :=
  if aligned a b then
    let d := dirTo a b
    bbSquare a ||| fullRay d.1 d.2 8 a ||| fullRay (-d.1) (-d.2) 8 a
  else
    bbSquare b

/-- Modelled from the spec: the 64-bit Zobrist key of a (color, piece, square)
triple.  `zobrist.rs` is absent; the spec only requires 64-bit keys per
feature, so the model fixes a concrete pseudo-random injection. -/
def zKey (c : Color) (p : Piece) (sq : Square) : Nat :=
  (0x9E3779B97F4A7C15 * ((c.idx * 6 + p.idx) * 64 + sq.val + 1) +
   0x7F4A7C159E3779B9) % 2 ^ 64

/-- Modelled from the spec: the side-to-move key.  `do_move` toggles the side
by complementing the whole key (`!self.state.zobrist`), so under the
implementation's convention the side key is the all-ones word. -/
def sideKey : Nat := MASK64

/-- Modelled from the spec: the Zobrist key of one castle right (0 = WhiteOO,
1 = WhiteOOO, 2 = BlackOO, 3 = BlackOOO). -/
def castleKey (i : Fin 4) : Nat :=
  (0x9E3779B97F4A7C15 * (1000 + i.val) + 0x7F4A7C159E3779B9) % 2 ^ 64

/-- Modelled from the spec: the Zobrist key of an en-passant file. -/
def epKey (file : Nat) : Nat :=
  (0x9E3779B97F4A7C15 * (2000 + file % 8) + 0x7F4A7C159E3779B9) % 2 ^ 64

/-- Modelled from the spec: castle rights are a 4-bit mask.  Bit 0 = WhiteOO,
bit 1 = WhiteOOO, bit 2 = BlackOO, bit 3 = BlackOOO. -/
abbrev CastleRights := Nat

/-- Modelled from the spec: the single-right masks of `CastleMask`. -/
def CastleMask.WhiteOO : Nat := 1
def CastleMask.WhiteOOO : Nat := 2
def CastleMask.BlackOO : Nat := 4
def CastleMask.BlackOOO : Nat := 8

/-- Modelled from the spec: `CastleRights::has(mask)`. -/
def crHas (r : CastleRights) (mask : Nat) : Bool := r &&& mask != 0

/-- Modelled from the spec: the per-square rights-clear mask — a right dies
when its king or rook square is the source or destination of a move. -/
def crClearMask (sq : Square) : Nat :=
  if sq.val = 4 then 3            -- E1
  else if sq.val = 0 then 2       -- A1
  else if sq.val = 7 then 1       -- H1
  else if sq.val = 60 then 12     -- E8
  else if sq.val = 56 then 8      -- A8
  else if sq.val = 63 then 4      -- H8
  else 0

/-- Modelled from the spec: `CastleRights::update(from, to)`. -/
def crUpdate (r : CastleRights) (from_ to_ : Square) : CastleRights :=
  r &&& (15 ^^^ (crClearMask from_ ||| crClearMask to_))

/-- Modelled from the spec: the move encoding of `moves.rs` — from, to, kind,
captured piece, promotion piece. -/
inductive Move where
  | quiet (f t : Square)
  | doublePush (f t : Square)
  | capture (f t : Square) (cap : Piece)
  | enPassant (f t : Square)
  | castle (f t : Square)
  | promote (f t : Square) (promo : Piece)
  | promoteCapture (f t : Square) (cap promo : Piece)
deriving DecidableEq, Repr

/-- Modelled from the spec: `Move::squares`. -/
def Move.squares : Move → Square × Square
  | .quiet f t => (f, t)
  | .doublePush f t => (f, t)
  | .capture f t _ => (f, t)
  | .enPassant f t => (f, t)
  | .castle f t => (f, t)
  | .promote f t _ => (f, t)
  | .promoteCapture f t _ _ => (f, t)

/-- Modelled from the spec: `Move::is_quiet`. -/
def Move.isQuiet : Move → Bool
  | .quiet _ _ => true
  | _ => false

/-- Modelled from the spec: `Move::is_capture`, true for plain and promoting
captures (an en-passant move's destination square is empty, so it does not
count as a capture for the mailbox checks). -/
def Move.isCapture : Move → Bool
  | .capture _ _ _ => true
  | .promoteCapture _ _ _ _ => true
  | _ => false

/-- Modelled from the spec: `Move::is_castle`. -/
def Move.isCastle : Move → Bool
  | .castle _ _ => true
  | _ => false

/-- Modelled from the spec: `Move::is_en_passant`. -/
def Move.isEnPassant : Move → Bool
  | .enPassant _ _ => true
  | _ => false

/-- Modelled from the spec: `Move::is_double_push`. -/
def Move.isDoublePush : Move → Bool
  | .doublePush _ _ => true
  | _ => false

/-- Modelled from the spec: `Move::is_promote`, true for both promotion
kinds. -/
def Move.isPromote : Move → Bool
  | .promote _ _ _ => true
  | .promoteCapture _ _ _ _ => true
  | _ => false

/-- Modelled from the spec: `Move::get_capture`; only called on captures,
answers `Pawn` elsewhere. -/
def Move.getCapture : Move → Piece
  | .capture _ _ cap => cap
  | .promoteCapture _ _ cap _ => cap
  | _ => .Pawn

/-- Modelled from the spec: `Move::get_promote`; only called on promotions,
answers `Pawn` elsewhere. -/
def Move.getPromote : Move → Piece
  | .promote _ _ promo => promo
  | .promoteCapture _ _ _ promo => promo
  | _ => .Pawn

/-- The state of the board at a given turn (`struct StateInfo`).  The
en-passant field carries `EnPassantSquare` as an `Option Square`. -/
structure StateInfo where
  side_to_move : Color
  halfmove : Nat
  checkers : BitBoard
  pinned : BitBoard
  castle_rights : CastleRights
  ep_square : Option Square
  zobrist : Nat
deriving DecidableEq, Repr

/-- Occupancy information of a board (`struct Occupancy`): the monochrome
bitboard and the two colored ones (index = `Color::idx`). -/
structure Occupancy where
  all : BitBoard
  colored : List BitBoard
deriving DecidableEq, Repr

/-- `Occupancy::update`: xor a mask into the total and one colored board. -/
def Occupancy.update (o : Occupancy) (c : Color) (mask : BitBoard) : Occupancy :=
  { all := o.all ^^^ mask,
    colored := o.colored.set c.idx ((o.colored.getD c.idx 0) ^^^ mask) }

/-- A complete chess position (`struct Board`).  `bitboards` is the flattened
`[[BitBoard; 6]; 2]`, index = `color.idx * 6 + piece.idx`; `mailbox` is the
64-entry array; `prev_states` keeps the Vec order (oldest first, push at the
end). -/
structure Board where
  fullmove : Nat
  bitboards : List BitBoard
  mailbox : List (Option (Color × Piece))
  occ : Occupancy
  state : StateInfo
  prev_states : List StateInfo
deriving DecidableEq, Repr

/-- `Board::get_bitboard`. -/
def Board.get_bitboard (b : Board) (c : Color) (p : Piece) : BitBoard :=
  b.bitboards.getD (c.idx * 6 + p.idx) 0

/-- `Board::get_piece`: the mailbox entry of a square. -/
def Board.get_piece (b : Board) (sq : Square) : Option (Color × Piece) :=
  (b.mailbox.getD sq.val none)

/-- `Board::get_king_sq`: the square of the side to move's king (unchecked in
the source; the model answers square 0 for a kingless board). -/
def Board.get_king_sq (b : Board) : Square :=
  asSquareUnchecked (b.get_bitboard b.state.side_to_move .King)

/-- `Board::is_path_clear`. -/
def Board.is_path_clear (b : Board) (from_ to_ : Square) : Bool :=
  bbEmpty (between from_ to_ &&& b.occ.all)

/-- `Board::place_piece::<ZOBRIST>`: set the square in the piece bitboard,
write the mailbox, update the occupancy and, when asked, xor the Zobrist
key. -/
def Board.place_piece (zob : Bool) (b : Board) (c : Color) (p : Piece) (sq : Square) : Board :=
  let i := c.idx * 6 + p.idx
  { b with
    bitboards := b.bitboards.set i ((b.bitboards.getD i 0) ^^^ bbSquare sq),
    mailbox := b.mailbox.set sq.val (some (c, p)),
    occ := b.occ.update c (bbSquare sq),
    state := { b.state with
      zobrist := if zob then b.state.zobrist ^^^ zKey c p sq else b.state.zobrist } }

/-- `Board::remove_piece::<ZOBRIST>`: unwraps the mailbox entry (`none` models
the panic), clears the square everywhere and, when asked, xors the Zobrist
key. -/
def Board.remove_piece (zob : Bool) (b : Board) (sq : Square) :
    Option ((Color × Piece) × Board) :=
  match b.get_piece sq with
  | none => none
  | some (c, p) =>
    let i := c.idx * 6 + p.idx
    some ((c, p),
      { b with
        bitboards := b.bitboards.set i ((b.bitboards.getD i 0) ^^^ bbSquare sq),
        mailbox := b.mailbox.set sq.val none,
        occ := b.occ.update c (bbSquare sq),
        state := { b.state with
          zobrist := if zob then b.state.zobrist ^^^ zKey c p sq else b.state.zobrist } })

/-- `Board::displace_piece::<ZOBRIST>`: a removal followed by a placement. -/
def Board.displace_piece (zob : Bool) (b : Board) (from_ to_ : Square) :
    Option ((Color × Piece) × Board) :=
  match b.remove_piece zob from_ with
  | none => none
  | some ((c, p), b1) => some ((c, p), b1.place_piece zob c p to_)

/-- `Board::attackers_to`: the bitboard of enemy pieces attacking a square,
en passant not accounted for. -/
def Board.attackers_to (b : Board) (sq : Square) : BitBoard :=
  let us := b.state.side_to_move
  let them := us.invert
  let occ := b.occ.all
  pawnAttacks us sq &&& b.get_bitboard them .Pawn |||
  rookAttacks sq occ &&& b.get_bitboard them .Rook |||
  knightAttacks sq &&& b.get_bitboard them .Knight |||
  bishopAttacks sq occ &&& b.get_bitboard them .Bishop |||
  queenAttacks sq occ &&& b.get_bitboard them .Queen |||
  kingAttacks sq &&& b.get_bitboard them .King

/-- `Board::checkers`: the attackers of the side to move's king square. -/
def Board.checkers (b : Board) : BitBoard :=
  b.attackers_to b.get_king_sq

/-- `Board::pinned`: scan every enemy rook/queen on a straight line and every
enemy bishop/queen on a diagonal from our king; when exactly one piece stands
strictly between, the friendly part of that single square is pinned. -/
def Board.pinned (b : Board) : BitBoard :=
  let us := b.state.side_to_move
  let occ_us := b.occ.colored.getD us.idx 0
  let them := us.invert
  let queens := b.get_bitboard them .Queen
  let king_sq := b.get_king_sq
  let straight := (bbSquares (b.get_bitboard them .Rook ||| queens)).foldl
    (fun pinned sq =>
      let btw := betweenStraight king_sq sq
      if bbCount (btw &&& b.occ.all) = 1 then pinned ||| (btw &&& occ_us) else pinned) 0
  (bbSquares (b.get_bitboard them .Bishop ||| queens)).foldl
    (fun pinned sq =>
      let btw := betweenDiagonal king_sq sq
      if bbCount (btw &&& b.occ.all) = 1 then pinned ||| (btw &&& occ_us) else pinned)
    straight

/-- Named squares used by the castle logic (a1 = 0 .. h8 = 63). -/
def SqA1 : Square := ⟨0, by omega⟩
def SqC1 : Square := ⟨2, by omega⟩
def SqD1 : Square := ⟨3, by omega⟩
def SqE1 : Square := ⟨4, by omega⟩
def SqF1 : Square := ⟨5, by omega⟩
def SqG1 : Square := ⟨6, by omega⟩
def SqH1 : Square := ⟨7, by omega⟩
def SqA8 : Square := ⟨56, by omega⟩
def SqC8 : Square := ⟨58, by omega⟩
def SqD8 : Square := ⟨59, by omega⟩
def SqE8 : Square := ⟨60, by omega⟩
def SqF8 : Square := ⟨61, by omega⟩
def SqG8 : Square := ⟨62, by omega⟩
def SqH8 : Square := ⟨63, by omega⟩

/-- `Board::is_legal`: legality of a pseudo-legal move.  For castles the
source tests the attackers of (H1, F1), (H8, F8), (A1, D1) or (A8, D8) by the
destination square; an en-passant move is checked for the rank-wise double
pin; every other move must respect the pin ray.  The `unreachable` castle arm
and the en-passant unwrap of an absent ep square are modelled by `none`. -/
def Board.is_legal (b : Board) (mv : Move) : Option Bool :=
  let (from_, to_) := mv.squares
  if mv.isCastle then
    let can_castle := fun (sq1 sq2 : Square) =>
      bbEmpty (b.attackers_to sq1 ||| b.attackers_to sq2)
    if to_ = SqG1 then some (can_castle SqH1 SqF1)
    else if to_ = SqG8 then some (can_castle SqH8 SqF8)
    else if to_ = SqC1 then some (can_castle SqA1 SqD1)
    else if to_ = SqC8 then some (can_castle SqA8 SqD8)
    else none
  else
    let epPart : Option Bool :=
      if mv.isEnPassant then
        match b.state.ep_square with
        | none => none
        | some ep_square =>
          let rank := rankBB ep_square
          let king_sq := b.get_king_sq
          if bbContains rank king_sq then
            let them := b.state.side_to_move.invert
            let doublePin := (bbSquares (b.get_bitboard them .Rook &&& rank)).any
              (fun rook_sq =>
                let btw := between king_sq rook_sq
                bbContains btw ep_square && (bbCount btw == 2))
            some doublePin
          else some false
      else some false
    match epPart with
    | none => none
    | some true => some false
    | some false =>
      some (!(bbContains b.state.pinned from_) ||
        bbContains (rayMask b.get_king_sq from_) to_)

/-- `Board::is_pseudo_legal`: could the move have been generated from this
position, pin and castle-transit checks apart. -/
def Board.is_pseudo_legal (b : Board) (mv : Move) : Bool :=
  let (from_, to_) := mv.squares
  match b.get_piece from_ with
  | none => false
  | some (color, piece) =>
    -- Verify it is one of our pieces.
    if color ≠ b.state.side_to_move then false
    else
    -- To occupied iff the move is a capture of the stored piece.
    let toOk := match b.get_piece to_ with
      | some (c2, p2) =>
        mv.isCapture && (c2 ≠ b.state.side_to_move) && (p2 = mv.getCapture)
      | none => !mv.isCapture
    if !toOk then false
    else
    let checkers := b.state.checkers
    if piece = .King then
      if mv.isCastle then
        let can_castle := fun (king_sq rook_sq : Square) (mask : Nat) =>
          (b.get_piece rook_sq = some (color, .Rook)) &&
          b.is_path_clear king_sq rook_sq &&
          crHas b.state.castle_rights mask
        bbEmpty checkers &&
          (match color with
           | .White =>
             if from_ = SqE1 ∧ to_ = SqG1 then can_castle SqE1 SqH1 CastleMask.WhiteOO
             else if from_ = SqE1 ∧ to_ = SqC1 then can_castle SqE1 SqA1 CastleMask.WhiteOOO
             else false
           | .Black =>
             if from_ = SqE8 ∧ to_ = SqG8 then can_castle SqE8 SqH8 CastleMask.BlackOO
             else if from_ = SqE8 ∧ to_ = SqC8 then can_castle SqE8 SqA8 CastleMask.BlackOOO
             else false)
      else
        bbEmpty (b.attackers_to to_) && bbContains (kingAttacks from_) to_
    else
      -- The move cannot be a castle when the mover is not the king.
      if mv.isCastle then false
      else
      let checkOk :=
        if bbCount checkers = 1 then
          let blocking_zone := between b.get_king_sq (asSquareUnchecked checkers)
          bbContains (blocking_zone ||| checkers) to_
        else true
      if bbCount checkers = 2 then false
      else if !checkOk then false
      else
      if piece = .Pawn then
        if mv.isEnPassant then
          match b.state.ep_square with
          | none => false
          | some ep_square =>
            (ep_square = mkSq to_.x from_.y) && bbContains (pawnAttacks color from_) to_
        else
          if !(to_.y = 0 || to_.y = 7 || !mv.isPromote) then false
          else if mv.isCapture then
            bbContains (pawnAttacks color from_) to_
          else
            (if mv.isDoublePush then pawnDoublePush color from_
             else pawnPush color from_) = some to_
      else
        if mv.isEnPassant || mv.isDoublePush || mv.isPromote then false
        else
          let occ := b.occ.all
          bbContains
            (match piece with
             | .Rook => rookAttacks from_ occ
             | .Knight => knightAttacks from_
             | .Bishop => bishopAttacks from_ occ
             | .Queen => queenAttacks from_ occ
             | _ => 0) to_

/-- `Board::do_move`: apply the move without legality checks, pushing the
previous state; answers the new board and the `reversible` boolean, `none`
when the source would panic (missing piece to remove, absent en-passant
square, or the `unreachable` castle arm).  `fullmove` wraps as a `u16` and
the halfmove clock as a `u8`. -/
def Board.do_move (b : Board) (mv : Move) : Option (Board × Bool) :=
  -- Store previous state and increment the fullmove counter.
  let b := { b with
    prev_states := b.prev_states ++ [b.state],
    fullmove := if b.state.side_to_move = Color.Black then (b.fullmove + 1) % 2 ^ 16
                else b.fullmove }
  -- Invert the side to move.
  let b := { b with state := { b.state with side_to_move := b.state.side_to_move.invert } }
  -- Extract base move info and remove the piece from its starting square.
  let (from_, to_) := mv.squares
  match b.remove_piece true from_ with
  | none => none
  | some ((color, piece), b) =>
    let reversible := mv.isQuiet && piece ≠ Piece.Pawn
    let afterKind : Option (Board × Piece) :=
      if mv.isCastle then
        -- Move the rook as well.
        let moved : Option ((Color × Piece) × Board) :=
          if to_ = SqG1 then b.displace_piece true SqH1 SqF1
          else if to_ = SqG8 then b.displace_piece true SqH8 SqF8
          else if to_ = SqC1 then b.displace_piece true SqA1 SqD1
          else if to_ = SqC8 then b.displace_piece true SqA8 SqD8
          else none
        match moved with
        | none => none
        | some r => some (r.2, piece)
      else if mv.isEnPassant then
        -- Remove the pawn at the en-passant square.
        match b.state.ep_square with
        | none => none
        | some ep =>
          match b.remove_piece true ep with
          | none => none
          | some (_, b2) => some (b2, piece)
      else
        -- Remove a captured enemy piece, then substitute a promotion.
        let captured : Option Board :=
          if mv.isCapture then
            match b.remove_piece true to_ with
            | none => none
            | some (_, b2) => some b2
          else some b
        match captured with
        | none => none
        | some b2 => some (b2, if mv.isPromote then mv.getPromote else piece)
    match afterKind with
    | none => none
    | some (b, piece) =>
      -- Place the piece at its destination.
      let b := b.place_piece true color piece to_
      -- Determine the checkers and pinned bitboards.
      let b := { b with state := { b.state with checkers := b.checkers, pinned := b.pinned } }
      -- Update the castling rights and en-passant square.
      let b := { b with state := { b.state with
        castle_rights := crUpdate b.state.castle_rights from_ to_,
        ep_square := if mv.isDoublePush then some to_ else none } }
      -- Update the halfmove clock.
      let b := { b with state := { b.state with
        halfmove := if reversible then (b.state.halfmove + 1) % 2 ^ 8 else 0 } }
      -- Invert the Zobrist key, as the color changed.
      let b := { b with state := { b.state with zobrist := comp64 b.state.zobrist } }
      some (b, reversible)

/-- `Board::undo_move`: revert the move, restoring the popped state; `none`
models the panics (empty history, missing pieces, the `unreachable` castle
arm, absent en-passant square).  The castle branch slides the rook back with
the Zobrist-updating displacement, exactly as the source does. -/
def Board.undo_move (b : Board) (mv : Move) : Option Board :=
  let them := b.state.side_to_move
  -- Restore the previous state and decrement the fullmove counter.
  match b.prev_states.getLast? with
  | none => none
  | some st =>
    let b := { b with state := st, prev_states := b.prev_states.dropLast }
    let b := { b with
      fullmove := if b.state.side_to_move = Color.Black then (b.fullmove + 2 ^ 16 - 1) % 2 ^ 16
                  else b.fullmove }
    -- Extract basic move info and remove the piece from its destination.
    let (from_, to_) := mv.squares
    match b.remove_piece false to_ with
    | none => none
    | some ((color, piece), b) =>
      let afterKind : Option (Board × Piece) :=
        if mv.isCastle then
          -- Move the rook back as well (with ZOBRIST = true in the source).
          let moved : Option ((Color × Piece) × Board) :=
            if to_ = SqG1 then b.displace_piece true SqF1 SqH1
            else if to_ = SqG8 then b.displace_piece true SqF8 SqH8
            else if to_ = SqC1 then b.displace_piece true SqD1 SqA1
            else if to_ = SqC8 then b.displace_piece true SqD8 SqA8
            else none
          match moved with
          | none => none
          | some r => some (r.2, piece)
        else if mv.isEnPassant then
          -- Place the captured enemy pawn back.
          match b.state.ep_square with
          | none => none
          | some ep => some (b.place_piece false them .Pawn ep, piece)
        else
          -- Replace a captured enemy piece; a promotion started as a pawn.
          let b2 := if mv.isCapture then b.place_piece false them mv.getCapture to_ else b
          some (b2, if mv.isPromote then .Pawn else piece)
      match afterKind with
      | none => none
      | some (b, piece) => some (b.place_piece false color piece from_)

/-- `nth_zobrist` inside `test_upcoming_repetition`: the Zobrist key of the
`n`-th previous state, counted from the end of `prev_states`; `none` models
the out-of-bounds panic of `prev_states[len - n]`. -/
def Board.nth_zobrist (b : Board) (n : Nat) : Option Nat :=
  if 1 ≤ n ∧ n ≤ b.prev_states.length then
    (b.prev_states.get? (b.prev_states.length - n)).map (·.zobrist)
  else
    none

/-- The odd offsets `3, 5, ...` up to and including the halfmove clock,
matching `(3..=halfmove).step_by(2)`. -/
def oddOffsets (halfmove : Nat) : List Nat :=
  (List.range (halfmove + 1)).filter (fun d => 3 ≤ d ∧ d % 2 = 1)

/-- The scan loop of `test_upcoming_repetition`, folded over the offsets with
the running xor `other`; `cuckoo` stands for `cuckoo::is_hash_of_legal_move`
with the board already applied (the cuckoo module is absent from `src/`). -/
def repetitionLoop (cuckoo : Nat → Bool) (b : Board) (cur : Nat) :
    List Nat → Nat → Option Bool
  | [], _ => some false
  | d :: ds, other =>
    match b.nth_zobrist (d - 1), b.nth_zobrist d with
    | some zPrev, some zd =>
      let other := other ^^^ comp64 (zPrev ^^^ zd)
      if other ≠ 0 then
        repetitionLoop cuckoo b cur ds other
      else
        let diff := cur ^^^ zd
        if cuckoo diff then some true else repetitionLoop cuckoo b cur ds other
    | _, _ => none

/-- `Board::test_upcoming_repetition`, parameterized by the cuckoo lookup. -/
def Board.test_upcoming_repetition (cuckoo : Nat → Bool) (b : Board) : Option Bool :=
  if b.state.halfmove < 3 then
    some false
  else
    let cur := b.state.zobrist
    match b.nth_zobrist 1 with
    | none => none
    | some z1 =>
      repetitionLoop cuckoo b cur (oddOffsets b.state.halfmove) (comp64 (cur ^^^ z1))

/-- Modelled from the spec: `Square::from_str`, a file letter `a`..`h`
followed by a rank digit `1`..`8`. -/
def parseSquareChars (c0 c1 : Char) : Option Square :=
  if 'a' ≤ c0 ∧ c0 ≤ 'h' ∧ '1' ≤ c1 ∧ c1 ≤ '8' then
    some (mkSq (c0.toNat - 97) (c1.toNat - 49))
  else none

/-- `Board::parse_move` on the characters of the string: infer the move kind
from the source piece and the destination occupancy, then validate with
`is_pseudo_legal` and `is_legal`.  The outer `Option` models panics (none
occur on the string path, but `is_legal` is fallible), the inner one the
`Result`: `some none` is a parse or legality error. -/
def Board.parse_move (b : Board) (s : List Char) : Option (Option Move) :=
  match s with
  | [a0, a1, a2, a3] =>
    match parseSquareChars a0 a1, parseSquareChars a2 a3 with
    | some from_, some to_ =>
      let mv := match b.get_piece from_ with
        | some (_, Piece.Pawn) =>
          if from_.x = to_.x then
            if ((to_.y : Int) - (from_.y : Int)).natAbs = 2 then Move.doublePush from_ to_
            else Move.quiet from_ to_
          else match b.get_piece to_ with
            | some (_, cap) => Move.capture from_ to_ cap
            | none => Move.enPassant from_ to_
        | some (_, Piece.King) =>
          if ((to_.x : Int) - (from_.x : Int)).natAbs = 2 then Move.castle from_ to_
          else match b.get_piece to_ with
            | some (_, cap) => Move.capture from_ to_ cap
            | none => Move.quiet from_ to_
        | _ =>
          -- Any other source square: a capture when the destination is
          -- occupied, otherwise the source builds an en-passant move.
          match b.get_piece to_ with
          | some (_, cap) => Move.capture from_ to_ cap
          | none => Move.enPassant from_ to_
      if b.is_pseudo_legal mv then
        match b.is_legal mv with
        | none => none
        | some true => some (some mv)
        | some false => some none
      else some none
    | _, _ => some none
  | [a0, a1, a2, a3, a4] =>
    match parseSquareChars a0 a1, parseSquareChars a2 a3 with
    | some from_, some to_ =>
      let promo : Option Piece :=
        if a4 = 'r' then some .Rook
        else if a4 = 'n' then some .Knight
        else if a4 = 'b' then some .Bishop
        else if a4 = 'q' then some .Queen
        else none
      match promo with
      | none => some none
      | some promote =>
        let mv := match b.get_piece to_ with
          | some (_, cap) => Move.promoteCapture from_ to_ cap promote
          | none => Move.promote from_ to_ promote
        if b.is_pseudo_legal mv then
          match b.is_legal mv with
          | none => none
          | some true => some (some mv)
          | some false => some none
        else some none
    | _, _ => some none
  | _ => some none

/-- The decimal rendering of a natural number, most significant digit
first (matching the `Display` of the clock fields). -/
def natChars (n : Nat) : List Char :=
  if h : n < 10 then [Char.ofNat (48 + n)]
  else natChars (n / 10) ++ [Char.ofNat (48 + n % 10)]
decreasing_by exact Nat.div_lt_self (by omega) (by omega)

/-- One decimal digit of a character, `none` outside `0`..`9`. -/
def charDigit (c : Char) : Option Nat :=
  if '0' ≤ c ∧ c ≤ '9' then some (c.toNat - 48) else none

/-- Accumulate decimal digits left to right. -/
def parseNatAux : List Char → Nat → Option Nat
  | [], acc => some acc
  | c :: rest, acc =>
    match charDigit c with
    | none => none
    | some d => parseNatAux rest (acc * 10 + d)

/-- `uN::from_str`: a non-empty all-digit string whose value fits the
bound. -/
def parseBoundedNat (bound : Nat) (cs : List Char) : Option Nat :=
  if cs = [] then none
  else match parseNatAux cs 0 with
    | none => none
    | some v => if v < bound then some v else none

/-- Modelled from the spec: the FEN letter of a piece (lowercase). -/
def pieceChar : Piece → Char
  | .Pawn => 'p'
  | .Rook => 'r'
  | .Knight => 'n'
  | .Bishop => 'b'
  | .Queen => 'q'
  | .King => 'k'

/-- Modelled from the spec: the FEN letter of a colored piece, uppercase for
White. -/
def coloredPieceChar (c : Color) (p : Piece) : Char :=
  match c with
  | .White => (pieceChar p).toUpper
  | .Black => pieceChar p

/-- Modelled from the spec: `Piece::from_char`, inverse of the FEN letters. -/
def pieceFromChar (ch : Char) : Option (Color × Piece) :=
  if ch = 'P' then some (.White, .Pawn)
  else if ch = 'R' then some (.White, .Rook)
  else if ch = 'N' then some (.White, .Knight)
  else if ch = 'B' then some (.White, .Bishop)
  else if ch = 'Q' then some (.White, .Queen)
  else if ch = 'K' then some (.White, .King)
  else if ch = 'p' then some (.Black, .Pawn)
  else if ch = 'r' then some (.Black, .Rook)
  else if ch = 'n' then some (.Black, .Knight)
  else if ch = 'b' then some (.Black, .Bishop)
  else if ch = 'q' then some (.Black, .Queen)
  else if ch = 'k' then some (.Black, .King)
  else none

/-- Modelled from the spec: the `w`/`b` rendering of the side to move. -/
def colorChars : Color → List Char
  | .White => ['w']
  | .Black => ['b']

/-- Modelled from the spec: `Color::from_str`. -/
def colorFromChars : List Char → Option Color
  | ['w'] => some .White
  | ['b'] => some .Black
  | _ => none

/-- Modelled from the spec: the `KQkq`-subset rendering of castle rights,
`-` when empty. -/
def crChars (r : CastleRights) : List Char :=
  if r = 0 then ['-']
  else
    (if r &&& 1 ≠ 0 then ['K'] else []) ++
    (if r &&& 2 ≠ 0 then ['Q'] else []) ++
    (if r &&& 4 ≠ 0 then ['k'] else []) ++
    (if r &&& 8 ≠ 0 then ['q'] else [])

/-- The castle-right bit of one FEN castling letter. -/
def crCharMask (c : Char) : Option Nat :=
  if c = 'K' then some 1
  else if c = 'Q' then some 2
  else if c = 'k' then some 4
  else if c = 'q' then some 8
  else none

/-- Modelled from the spec: `CastleRights::from_str`. -/
def crFromChars (cs : List Char) : Option CastleRights :=
  if cs = ['-'] then some 0
  else if cs = [] then none
  else cs.foldl (fun acc c =>
    match acc, crCharMask c with
    | some r, some m => some (r ||| m)
    | _, _ => none) (some 0)

/-- Modelled from the spec: the rendering of the en-passant field, an
algebraic square or `-`. -/
def epChars : Option Square → List Char
  | none => ['-']
  | some sq => [Char.ofNat (97 + sq.x), Char.ofNat (49 + sq.y)]

/-- Modelled from the spec: `EnPassantSquare::from_str`. -/
def epFromChars (cs : List Char) : Option (Option Square) :=
  if cs = ['-'] then some none
  else match cs with
    | [c0, c1] =>
      match parseSquareChars c0 c1 with
      | some sq => some (some sq)
      | none => none
    | _ => none

/-- The mailbox row of one rank, files a to h. -/
def rankCells (b : Board) (y : Nat) : List (Option (Color × Piece)) :=
  (List.range 8).map (fun x => b.get_piece (mkSq x y))

/-- The run-length rendering of one rank: empty streaks become digits,
written before each piece and once at the end (`write_if_not_zero`). -/
def emitRankAux : List (Option (Color × Piece)) → Nat → List Char
  | [], streak => if streak ≠ 0 then [Char.ofNat (48 + streak)] else []
  | none :: rest, streak => emitRankAux rest (streak + 1)
  | some (c, p) :: rest, streak =>
    (if streak ≠ 0 then [Char.ofNat (48 + streak)] else []) ++
    coloredPieceChar c p :: emitRankAux rest 0

/-- Interleave a separator between chunks (the `/` and space writes of the
`Display` implementation). -/
def joinSep (sep : Char) : List (List Char) → List Char
  | [] => []
  | [g] => g
  | g :: gs => g ++ sep :: joinSep sep gs

/-- The piece-placement field of the FEN, top rank first. -/
def boardFieldChars (b : Board) : List Char :=
  joinSep '/' (((List.range 8).reverse).map (fun y => emitRankAux (rankCells b y) 0))

/-- The `Display` implementation of `Board`: the FEN rendering. -/
def Board.toFen (b : Board) : List Char :=
  boardFieldChars b ++ ' ' :: colorChars b.state.side_to_move ++
  ' ' :: crChars b.state.castle_rights ++
  ' ' :: epChars b.state.ep_square ++
  ' ' :: natChars b.state.halfmove ++
  ' ' :: natChars b.fullmove

/-- `str::split` on one separator character: adjacent separators yield empty
chunks, and the empty string yields one empty chunk. -/
def splitOnChar (sep : Char) : List Char → List (List Char)
  | [] => [[]]
  | c :: rest =>
    if c = sep then [] :: splitOnChar sep rest
    else match splitOnChar sep rest with
      | [] => [[c]]
      | g :: gs => (c :: g) :: gs

/-- The placement loop body for one rank of the FEN board field: digits skip
files, letters place pieces, and the file counter may not pass 8. -/
def parseRankInto (y : Nat) : List Char → Nat → Board → Option Board
  | [], x, b => if x = 8 then some b else none
  | c :: rest, x, b =>
    let step : Option (Board × Nat) :=
      if '1' ≤ c ∧ c ≤ '8' then some (b, x + (c.toNat - 49))
      else match pieceFromChar c with
        | none => none
        | some (color, piece) => some (b.place_piece true color piece (mkSq (x % 8) y), x)
    match step with
    | none => none
    | some (b, x) =>
      if x + 1 > 8 then none else parseRankInto y rest (x + 1) b

/-- Fold the eight rank strings into the board, top rank first. -/
def parsePlacement : List (List Char) → Nat → Board → Option Board
  | [], _, b => some b
  | r :: rs, i, b =>
    match parseRankInto (7 - i) r 0 b with
    | none => none
    | some b => parsePlacement rs (i + 1) b

/-- The `FromStr` implementation of `Board`: parse a FEN string.  Exactly six
space-separated fields; the scalar fields parse first, then the placement is
folded into an empty board and the checkers and pinned masks are derived. -/
def fromFen (cs : List Char) : Option Board :=
  match splitOnChar ' ' cs with
  | [f0, f1, f2, f3, f4, f5] =>
    match colorFromChars f1, crFromChars f2, epFromChars f3,
          parseBoundedNat 256 f4, parseBoundedNat 65536 f5 with
    | some side, some rights, some ep, some hm, some fm =>
      let board : Board :=
        { fullmove := fm,
          bitboards := List.replicate 12 0,
          mailbox := List.replicate 64 none,
          occ := { all := 0, colored := [0, 0] },
          state :=
            { side_to_move := side, halfmove := hm, checkers := 0, pinned := 0,
              castle_rights := rights, ep_square := ep, zobrist := 0 },
          prev_states := [] }
      let ranks := splitOnChar '/' f0
      if ranks.length = 8 then
        match parsePlacement ranks 0 board with
        | none => none
        | some b =>
          some { b with state := { b.state with checkers := b.checkers, pinned := b.pinned } }
      else none
    | _, _, _, _, _ => none
  | _ => none

/-- The claim's notion of the white king-side castle emitted by the move
generator, following the spec's words (generation step 1): castle rights
held, the path between king and rook empty, the king not in check, and
neither transit square — F1, which the king crosses, nor G1, where it
lands — attacked.  The generator itself lives in code absent from `src/`
(`Game` and its castle availability), so this definition follows the spec. -/
def specCastleKingSideOk (b : Board) : Bool :=
  crHas b.state.castle_rights CastleMask.WhiteOO &&
  b.is_path_clear SqE1 SqH1 &&
  bbEmpty b.state.checkers &&
  bbEmpty (b.attackers_to SqF1) &&
  bbEmpty (b.attackers_to SqG1)

/-- A throwaway board used as the `getD` default of concrete parses. -/
def dummyBoard : Board :=
  { fullmove := 0, bitboards := List.replicate 12 0,
    mailbox := List.replicate 64 none,
    occ := { all := 0, colored := [0, 0] },
    state := { side_to_move := .White, halfmove := 0, checkers := 0, pinned := 0,
               castle_rights := 0, ep_square := none, zobrist := 0 },
    prev_states := [] }

/-- The FEN of the start position. -/
def startFen : List Char :=
  "rnbqkbnr/pppppppp/8/8/8/8/PPPPPPPP/RNBQKBNR w KQkq - 0 1".toList

/-- The parsed start position. -/
def startBoard : Board := (fromFen startFen).getD dummyBoard

/-- White king on e1, rook on h1, black king on e8: white may castle king
side. -/
def castleFen : List Char := "4k3/8/8/8/8/8/8/4K2R w K - 0 1".toList

/-- The parsed simple castling position. -/
def castleBoard : Board := (fromFen castleFen).getD dummyBoard

/-- White king e1 and rook h1 with castle rights, black rook g8 and king h8:
the castle landing square g1 is attacked down the g file, while f1 and h1
are safe. -/
def attackedG1Fen : List Char := "6rk/8/8/8/8/8/8/4K2R w K - 0 1".toList

/-- The parsed position with the attacked castle landing square. -/
def attackedG1Board : Board := (fromFen attackedG1Fen).getD dummyBoard

/-- The white king-side castle move. -/
def castleMv : Move := Move.castle SqE1 SqG1

/-- C1.  The claim: any legal sequence done then undone restores every field,
the zobrist key included.  The code: `undo_move` slides the castling rook
back with the Zobrist-updating displacement, so undoing a castle xors the
rook's two square keys into the restored zobrist.  At this concrete position
the castle is legal, do then undo restores bitboards, mailbox, occupancies,
fullmove and history, but not the zobrist. -/
theorem c1_undo_castle_zobrist :
    fromFen castleFen = some castleBoard ∧
    castleBoard.is_pseudo_legal castleMv = true ∧
    castleBoard.is_legal castleMv = some true ∧
    ((castleBoard.do_move castleMv).bind
      (fun p => p.1.undo_move castleMv)).map
        (fun b2 => (b2.bitboards = castleBoard.bitboards ∧
                    b2.mailbox = castleBoard.mailbox ∧
                    b2.occ = castleBoard.occ ∧
                    b2.fullmove = castleBoard.fullmove ∧
                    b2.prev_states = castleBoard.prev_states ∧
                    b2.state.zobrist ≠ castleBoard.state.zobrist : Bool)) = some true := by
  decide

/-- C4.  The claim: `is_legal` rejects a castle exactly when the crossed or
landing square is attacked.  The code tests the attackers of H1 and F1 (the
rook square and the crossed square) instead of F1 and G1, so at this
position — G1 attacked down the g file, F1 and H1 safe — the pseudo-legal
castle into check is reported legal. -/
theorem c4_castle_landing_attacked_allowed :
    fromFen attackedG1Fen = some attackedG1Board ∧
    attackedG1Board.is_pseudo_legal castleMv = true ∧
    attackedG1Board.attackers_to SqG1 ≠ 0 ∧
    attackedG1Board.attackers_to SqF1 = 0 ∧
    attackedG1Board.attackers_to SqH1 = 0 ∧
    attackedG1Board.is_legal castleMv = some true := by
  decide

/-- C2.  The claim: the generator's yield set equals the set of moves passing
`is_pseudo_legal` and `is_legal`.  At the position with G1 attacked the
white king-side castle passes both predicates (because `is_legal` tests the
wrong squares, H1 and F1), while the generator, which per the spec refuses a
castle whose transit squares F1 or G1 are attacked, does not emit it — so
the two sets differ. -/
theorem c2_generator_predicate_mismatch :
    fromFen attackedG1Fen = some attackedG1Board ∧
    attackedG1Board.is_pseudo_legal castleMv = true ∧
    attackedG1Board.is_legal castleMv = some true ∧
    specCastleKingSideOk attackedG1Board = false := by
  decide

/-- C5.  The claim: for a rook, knight, bishop or queen, `parse_move` infers
a quiet move when the destination is empty and accepts every legal quiet
move of such a piece.  The code instead builds an en-passant move for those
pieces when the destination is empty, which `is_pseudo_legal` always
rejects for a non-pawn: at the start position the legal knight development
g1f3 passes both predicates as a quiet move, yet `parse_move` refuses the
string. -/
theorem c5_quiet_piece_move_rejected :
    fromFen startFen = some startBoard ∧
    startBoard.get_piece (mkSq 6 0) = some (Color.White, Piece.Knight) ∧
    startBoard.get_piece (mkSq 5 2) = none ∧
    startBoard.is_pseudo_legal (Move.quiet (mkSq 6 0) (mkSq 5 2)) = true ∧
    startBoard.is_legal (Move.quiet (mkSq 6 0) (mkSq 5 2)) = some true ∧
    startBoard.parse_move "g1f3".toList = some none := by
  decide

/-- More named squares for the concrete scenarios. -/
def SqE2 : Square := ⟨12, by omega⟩
def SqE3 : Square := ⟨20, by omega⟩
def SqE4 : Square := ⟨28, by omega⟩
def SqF3 : Square := ⟨21, by omega⟩
def SqG3 : Square := ⟨22, by omega⟩
def SqE7 : Square := ⟨52, by omega⟩

/-- C7, counterexample.  The claim: after a double push the en-passant target
is the square the pawn passed over (e3 after e2e4).  The code stores the
push's destination square: after the legal double push e2e4 from the start
position the target is e4, not e3. -/
theorem c7_ep_target_not_passed_square :
    fromFen startFen = some startBoard ∧
    startBoard.is_pseudo_legal (Move.doublePush SqE2 SqE4) = true ∧
    startBoard.is_legal (Move.doublePush SqE2 SqE4) = some true ∧
    (startBoard.do_move (Move.doublePush SqE2 SqE4)).map (fun r => r.1.state.ep_square)
      = some (some SqE4) ∧
    (startBoard.do_move (Move.doublePush SqE2 SqE4)).map (fun r => r.1.state.ep_square)
      ≠ some (some SqE3) := by
  decide

set_option maxHeartbeats 2000000 in
/-- C7, amended.  After every completed `do_move` the en-passant target is
set exactly on a double push, and then it equals the push's destination
square `to` (the pushed pawn's own square); every other move clears it. -/
theorem c7_ep_target_amended (b : Board) (m : Move) (r : Board × Bool)
    (h : b.do_move m = some r) :
    r.1.state.ep_square = if m.isDoublePush then some m.squares.2 else none := by
  cases m <;>
    (unfold Board.do_move at h;
     simp only [Move.squares, Move.isCastle, Move.isEnPassant, Move.isCapture, Move.isPromote,
       Move.isDoublePush, Move.isQuiet, Bool.false_eq_true, Bool.true_eq_false, if_false,
       if_true, ite_false, ite_true] at h;
     repeat' split at h) <;>
    (cases h; try rfl)

/-- C7, witness for the amended theorem at the double push e2e4. -/
theorem c7_ep_target_amended_witness :
    (startBoard.do_move (Move.doublePush SqE2 SqE4)).map (fun r => r.1.state.ep_square)
      = some (some SqE4) := by
  cases h : startBoard.do_move (Move.doublePush SqE2 SqE4) with
  | none => exact absurd h (by decide)
  | some r =>
    rw [Option.map_some', c7_ep_target_amended startBoard (Move.doublePush SqE2 SqE4) r h]
    rfl

/-- The FEN with the halfmove clock already at the u8 maximum 255. -/
def clock255Fen : List Char := "4k3/8/8/8/8/8/8/4K2N w - - 255 1".toList

/-- The parsed clock-255 position (white knight h1). -/
def clock255Board : Board := (fromFen clock255Fen).getD dummyBoard

/-- C8, counterexample.  The claim: a quiet non-pawn move makes the halfmove
clock the previous clock plus one.  The clock is a `u8`: at 255 the quiet
knight move h1g3 wraps the clock to 0, not 256. -/
theorem c8_halfmove_wrap_at_255 :
    fromFen clock255Fen = some clock255Board ∧
    clock255Board.state.halfmove = 255 ∧
    clock255Board.get_piece SqH1 = some (Color.White, Piece.Knight) ∧
    (clock255Board.do_move (Move.quiet SqH1 SqG3)).map (fun r => (r.1.state.halfmove, r.2))
      = some (0, true) ∧
    (0 : Nat) ≠ 255 + 1 := by
  decide

set_option maxHeartbeats 2000000 in
/-- C8, amended.  For every completed `do_move` of a piece standing on the
source square: the returned boolean is true exactly for a quiet move of a
non-pawn, and the halfmove clock becomes the previous clock plus one reduced
modulo `2 ^ 8` in that case and 0 otherwise. -/
theorem c8_halfmove_amended (b : Board) (m : Move) (r : Board × Bool) (c : Color) (p : Piece)
    (hp : b.get_piece m.squares.1 = some (c, p))
    (h : b.do_move m = some r) :
    r.2 = (m.isQuiet && p ≠ Piece.Pawn) ∧
    r.1.state.halfmove = if r.2 then (b.state.halfmove + 1) % 2 ^ 8 else 0 := by
  cases m <;>
    (simp only [Move.squares, Board.get_piece] at hp;
     unfold Board.do_move Board.remove_piece at h;
     simp only [Board.get_piece, Move.squares, Move.isCastle, Move.isEnPassant, Move.isCapture,
       Move.isPromote, Move.isDoublePush, Move.isQuiet, Bool.false_eq_true, Bool.true_eq_false,
       if_false, if_true, ite_false, ite_true] at h;
     rw [hp] at h;
     dsimp only at h;
     repeat' split at h) <;>
    (cases h;
     try exact ⟨rfl, rfl⟩;
     try (refine ⟨rfl, ?_⟩; simp_all [Board.place_piece, Bool.false_and, Bool.true_and]))

/-- C8, witness for the amended theorem: the quiet knight move g1f3 from the
start position answers true and moves the clock from 0 to 1. -/
theorem c8_halfmove_amended_witness :
    (startBoard.do_move (Move.quiet (mkSq 6 0) (mkSq 5 2))).map (fun r => (r.1.state.halfmove, r.2))
      = some (1, true) := by
  cases h : startBoard.do_move (Move.quiet (mkSq 6 0) (mkSq 5 2)) with
  | none => exact absurd h (by decide)
  | some r =>
    obtain ⟨h1, h2⟩ := c8_halfmove_amended startBoard (Move.quiet (mkSq 6 0) (mkSq 5 2)) r
      Color.White Piece.Knight (by decide) h
    rw [Option.map_some', h2, h1]
    decide

/-- Placing a piece never touches the history stack. -/
theorem place_piece_prev_states (z : Bool) (b : Board) (c : Color) (p : Piece) (sq : Square) :
    (b.place_piece z c p sq).prev_states = b.prev_states := rfl

/-- The rank-placement loop never touches the history stack. -/
theorem parseRankInto_prev_states : ∀ (cs : List Char) (y x : Nat) (b b2 : Board),
    parseRankInto y cs x b = some b2 → b2.prev_states = b.prev_states := by
  intro cs
  induction cs with
  | nil =>
    intro y x b b2 h
    simp only [parseRankInto] at h
    split at h
    · cases h; rfl
    · cases h
  | cons c rest ih =>
    intro y x b b2 h
    simp only [parseRankInto] at h
    split at h
    · cases h
    · rename_i b3 x3 hstep
      split at h
      · cases h
      · have hrec := ih _ _ _ _ h
        split at hstep
        · cases hstep; exact hrec
        · split at hstep
          · cases hstep
          · cases hstep; exact hrec.trans (place_piece_prev_states _ _ _ _ _)

/-- The placement fold never touches the history stack. -/
theorem parsePlacement_prev_states : ∀ (rs : List (List Char)) (i : Nat) (b b2 : Board),
    parsePlacement rs i b = some b2 → b2.prev_states = b.prev_states := by
  intro rs
  induction rs with
  | nil =>
    intro i b b2 h
    simp only [parsePlacement] at h
    cases h; rfl
  | cons r rest ih =>
    intro i b b2 h
    simp only [parsePlacement] at h
    split at h
    · cases h
    · rename_i b3 heq
      exact (ih _ _ _ h).trans (parseRankInto_prev_states _ _ _ _ _ heq)

/-- A freshly parsed board has an empty history stack. -/
theorem fromFen_prev_states : ∀ (cs : List Char) (b : Board), fromFen cs = some b →
    b.prev_states = [] := by
  intro cs b h
  unfold fromFen at h
  split at h
  · split at h
    · dsimp only at h
      split at h
      · split at h
        · cases h
        · rename_i b3 heq
          cases h
          simpa using parsePlacement_prev_states _ _ _ _ heq
      · cases h
    · cases h
  · cases h

/-- A position reached from a fresh FEN (halfmove 1) by three quiet moves:
knight h1 to g3, black king e8 to e7, knight g3 back to h1.  Its halfmove
clock is 4 while the stack holds only 3 states. -/
def repFen : List Char := "4k3/8/8/8/8/8/8/4K2N w - - 1 1".toList

/-- The parsed and replayed short-history position. -/
def repBoard : Board :=
  ((fromFen repFen).bind (fun b =>
    (b.do_move (Move.quiet SqH1 SqG3)).bind (fun p =>
      (p.1.do_move (Move.quiet SqE8 SqE7)).bind (fun q =>
        (q.1.do_move (Move.quiet SqG3 SqH1)).map (·.1))))).getD dummyBoard

/-- C10, counterexample.  The claim: every board whose halfmove clock is at
least 3 but whose stack holds fewer entries than the clock panics.  Here the
clock is 4 and the stack holds 3 entries — fewer than the clock — yet the
scan only reaches the odd offset 3, stays in bounds, and returns a boolean. -/
theorem c10_no_panic_even_clock :
    repBoard.state.halfmove = 4 ∧
    repBoard.prev_states.length = 3 ∧
    repBoard.prev_states.length < repBoard.state.halfmove ∧
    repBoard.test_upcoming_repetition (fun _ => false) = some false := by
  decide

/-- C10, amended.  Restricted to the claim's own example: a board freshly
parsed from a FEN whose halfmove field is at least 3 has an empty history
stack, so the very first history access `prev_states[len - 1]` is out of
bounds and the call panics instead of returning a boolean.  (With moves on
the stack the scan panics exactly when it reaches an offset beyond the
stack, which can be smaller than the clock itself.) -/
theorem c10_fresh_fen_panics (cs : List Char) (b : Board) (cuckoo : Nat → Bool)
    (h : fromFen cs = some b) (h3 : 3 ≤ b.state.halfmove) :
    b.test_upcoming_repetition cuckoo = none := by
  unfold Board.test_upcoming_repetition
  rw [if_neg (by omega)]
  have hz : b.nth_zobrist 1 = none := by
    unfold Board.nth_zobrist
    rw [fromFen_prev_states cs b h]
    simp
  simp only [hz]

/-- C10, witness for the amended theorem at a fresh FEN with halfmove 3. -/
theorem c10_fresh_fen_panics_witness :
    (((fromFen "4k3/8/8/8/8/8/8/4K3 w - - 3 1".toList).getD dummyBoard).test_upcoming_repetition
      (fun _ => false)) = none := by
  exact c10_fresh_fen_panics "4k3/8/8/8/8/8/8/4K3 w - - 3 1".toList _ (fun _ => false)
    (by decide) (by decide)

/-- When the scan loop reports an upcoming repetition, some probed offset in
the list had its stored zobrist recognized by the cuckoo lookup against the
current key. -/
theorem repetitionLoop_true (cuckoo : Nat → Bool) (b : Board) (cur : Nat) :
    ∀ (ds : List Nat) (other : Nat),
      repetitionLoop cuckoo b cur ds other = some true →
      ∃ d ∈ ds, ∃ z, b.nth_zobrist d = some z ∧ cuckoo (cur ^^^ z) = true := by
  intro ds
  induction ds with
  | nil =>
    intro other h
    simp [repetitionLoop] at h
  | cons d rest ih =>
    intro other h
    simp only [repetitionLoop] at h
    split at h
    · rename_i zPrev zd h1 h2
      split at h
      · obtain ⟨e, he, hz⟩ := ih _ h
        exact ⟨e, List.mem_cons_of_mem _ he, hz⟩
      · split at h
        · rename_i hc
          exact ⟨d, List.mem_cons_self _ _, zd, h2, hc⟩
        · obtain ⟨e, he, hz⟩ := ih _ h
          exact ⟨e, List.mem_cons_of_mem _ he, hz⟩
    · cases h

/-- C9.  The repetition test returns false whenever the halfmove clock is
below 3, and it returns true only when, at some odd offset `d` between 3 and
the clock, the xor of the current zobrist with the stored zobrist at offset
`d` is recognized by the cuckoo lookup. -/
theorem c9_repetition_scan (cuckoo : Nat → Bool) (b : Board) :
    (b.state.halfmove < 3 → b.test_upcoming_repetition cuckoo = some false) ∧
    (b.test_upcoming_repetition cuckoo = some true →
      ∃ d, 3 ≤ d ∧ d ≤ b.state.halfmove ∧ d % 2 = 1 ∧
        ∃ z, b.nth_zobrist d = some z ∧ cuckoo (b.state.zobrist ^^^ z) = true) := by
  constructor
  · intro hlt
    unfold Board.test_upcoming_repetition
    rw [if_pos hlt]
  · intro h
    unfold Board.test_upcoming_repetition at h
    split at h
    · cases h
    · split at h
      · cases h
      · obtain ⟨d, hd, z, hz, hc⟩ := repetitionLoop_true cuckoo b _ _ _ h
        have hmem := List.mem_filter.mp hd
        have hr := List.mem_range.mp hmem.1
        have hp := of_decide_eq_true hmem.2
        exact ⟨d, hp.1, by omega, hp.2, z, hz, hc⟩

/-- C9, witness: on the throwaway board the clock is 0, so the test answers
false. -/
theorem c9_repetition_scan_witness :
    dummyBoard.test_upcoming_repetition (fun _ => false) = some false :=
  (c9_repetition_scan (fun _ => false) dummyBoard).1 (by decide)

/-- A cell of the mailbox. -/
abbrev Cell := Option (Color × Piece)

/-- Generic xor-fold of a per-cell contribution over the 64 squares of a
mailbox. -/
def mbXorFold (g : Cell → Square → Nat) (mb : List Cell) : Nat :=
  (List.finRange 64).foldr (fun sq acc => g (mb.getD sq.val none) sq ^^^ acc) 0

/-- The Zobrist contribution of one cell. -/
def cellZKey : Cell → Square → Nat
  | some (c, p), sq => zKey c p sq
  | none, _ => 0

/-- The Zobrist key of a whole mailbox: the xor of the keys of the pieces
present. -/
def pieceXorOfMailbox (mb : List Cell) : Nat := mbXorFold cellZKey mb

/-- The contribution of one cell to the (c, p) piece bitboard. -/
def cellBB (c : Color) (p : Piece) : Cell → Square → Nat :=
  fun cell sq => if cell = some (c, p) then bbSquare sq else 0

/-- The piece bitboard a mailbox induces. -/
def bbOfMailbox (mb : List Cell) (c : Color) (p : Piece) : Nat := mbXorFold (cellBB c p) mb

/-- The contribution of one cell to the total occupancy. -/
def cellOccAll : Cell → Square → Nat :=
  fun cell sq => if cell.isSome then bbSquare sq else 0

/-- The total occupancy a mailbox induces. -/
def occAllOfMailbox (mb : List Cell) : Nat := mbXorFold cellOccAll mb

/-- The contribution of one cell to one colored occupancy. -/
def cellOccColor (c : Color) : Cell → Square → Nat :=
  fun cell sq => match cell with
    | some (c2, _) => if c2 = c then bbSquare sq else 0
    | none => 0

/-- The colored occupancy a mailbox induces. -/
def occColorOfMailbox (mb : List Cell) (c : Color) : Nat := mbXorFold (cellOccColor c) mb

/-- Xor of a value twice cancels. -/
theorem xor_cancel_left (a b : Nat) : a ^^^ (a ^^^ b) = b := by
  rw [← Nat.xor_assoc, Nat.xor_self, Nat.zero_xor]

/-- Left commutativity of xor. -/
theorem xor_left_comm (a b c : Nat) : a ^^^ (b ^^^ c) = b ^^^ (a ^^^ c) := by
  rw [← Nat.xor_assoc, Nat.xor_comm a b, Nat.xor_assoc]

/-- Two xor-folds agree when the contributions agree on the list. -/
theorem foldr_xor_eq_of_agree (l : List Square) (f g : Square → Nat)
    (h : ∀ a ∈ l, f a = g a) :
    l.foldr (fun sq acc => f sq ^^^ acc) 0 = l.foldr (fun sq acc => g sq ^^^ acc) 0 := by
  induction l with
  | nil => rfl
  | cons a l ih =>
    simp only [List.foldr_cons]
    rw [h a (List.mem_cons_self _ _), ih (fun x hx => h x (List.mem_cons_of_mem _ hx))]

/-- Changing the contribution at a single member of a duplicate-free list
changes the xor-fold by the xor of the old and new contributions there. -/
theorem foldr_xor_update (l : List Square) (hl : l.Nodup) (f g : Square → Nat) (a : Square)
    (ha : a ∈ l) (hoff : ∀ x ∈ l, x ≠ a → f x = g x) :
    l.foldr (fun sq acc => f sq ^^^ acc) 0 =
      l.foldr (fun sq acc => g sq ^^^ acc) 0 ^^^ g a ^^^ f a := by
  induction l with
  | nil => cases ha
  | cons b l ih =>
    rcases List.mem_cons.mp ha with rfl | hmem
    · have hnotin := (List.nodup_cons.mp hl).1
      have heq : ∀ x ∈ l, f x = g x := fun x hx =>
        hoff x (List.mem_cons_of_mem _ hx) (fun hxa => hnotin (hxa ▸ hx))
      simp only [List.foldr_cons]
      rw [foldr_xor_eq_of_agree l f g heq]
      generalize l.foldr (fun sq acc => g sq ^^^ acc) 0 = R
      simp only [Nat.xor_assoc, Nat.xor_comm, xor_left_comm, xor_cancel_left, Nat.xor_self,
        Nat.xor_zero, Nat.zero_xor]
    · have hba : b ≠ a := fun hba => (List.nodup_cons.mp hl).1 (hba ▸ hmem)
      simp only [List.foldr_cons]
      rw [hoff b (List.mem_cons_self _ _) hba,
        ih (List.nodup_cons.mp hl).2 hmem (fun x hx => hoff x (List.mem_cons_of_mem _ hx))]
      generalize l.foldr (fun sq acc => g sq ^^^ acc) 0 = R
      simp only [Nat.xor_assoc]

/-- Setting one cell of a 64-entry mailbox moves any xor-fold by the xor of
the old and new contributions of that square. -/
theorem mbXorFold_set (g : Cell → Square → Nat) (mb : List Cell) (sq : Square) (v : Cell)
    (hlen : mb.length = 64) :
    mbXorFold g (mb.set sq.val v) =
      mbXorFold g mb ^^^ g (mb.getD sq.val none) sq ^^^ g v sq := by
  unfold mbXorFold
  have := foldr_xor_update (List.finRange 64) (List.nodup_finRange 64)
    (fun x => g ((mb.set sq.val v).getD x.val none) x)
    (fun x => g (mb.getD x.val none) x)
    sq (List.mem_finRange sq)
    (fun x _ hxa => by
      have : sq.val ≠ x.val := fun hv => hxa (Fin.eq_of_val_eq hv).symm
      simp only [List.getD_eq_getElem?_getD, List.getElem?_set_ne this])
  rw [this]
  have hset : (mb.set sq.val v).getD sq.val none = v := by
    simp only [List.getD_eq_getElem?_getD, List.getElem?_set_self (show sq.val < mb.length by omega)]
    rfl
  simp only [hset]

/-- The tracked quantity of the zobrist invariant: the stored key xored with
the piece-key xor of the mailbox. -/
def Qm (b : Board) : Nat := b.state.zobrist ^^^ pieceXorOfMailbox b.mailbox

/-- Placing a piece keeps the mailbox length. -/
theorem place_mailbox_length (z : Bool) (b : Board) (c : Color) (p : Piece) (sq : Square) :
    (b.place_piece z c p sq).mailbox.length = b.mailbox.length := by
  simp [Board.place_piece]

/-- Placing a piece does not change the other cells. -/
theorem place_get_piece_ne (z : Bool) (b : Board) (c : Color) (p : Piece) (sq s : Square)
    (h : s ≠ sq) :
    (b.place_piece z c p sq).get_piece s = b.get_piece s := by
  have : sq.val ≠ s.val := fun hv => h (Fin.eq_of_val_eq hv.symm)
  simp [Board.place_piece, Board.get_piece, List.getD_eq_getElem?_getD,
    List.getElem?_set_ne this]

/-- Placing a piece with the Zobrist flag on an empty cell of a full-length
mailbox keeps the tracked zobrist quantity. -/
theorem Qm_place (b : Board) (c : Color) (p : Piece) (sq : Square)
    (hlen : b.mailbox.length = 64) (hcell : b.get_piece sq = none) :
    Qm (b.place_piece true c p sq) = Qm b := by
  unfold Qm Board.place_piece pieceXorOfMailbox
  dsimp only
  rw [mbXorFold_set _ _ _ _ hlen]
  have hc : b.mailbox.getD sq.val none = none := hcell
  rw [hc]
  simp only [cellZKey, if_true, Nat.xor_zero, Nat.zero_xor]
  simp only [Nat.xor_assoc, Nat.xor_comm, xor_left_comm, xor_cancel_left, Nat.xor_self,
    Nat.xor_zero, Nat.zero_xor]

/-- What a successful removal says: the removed pair was the cell content,
and the result differs only there, with the tracked quantity kept. -/
theorem Qm_remove (b : Board) (sq : Square) (cp : Color × Piece) (b2 : Board)
    (hlen : b.mailbox.length = 64)
    (h : b.remove_piece true sq = some (cp, b2)) :
    Qm b2 = Qm b ∧
    b2.mailbox.length = 64 ∧
    b2.get_piece sq = none ∧
    (∀ s : Square, s ≠ sq → b2.get_piece s = b.get_piece s) ∧
    b.get_piece sq = some cp ∧
    b2.state.zobrist = b.state.zobrist ^^^ zKey cp.1 cp.2 sq ∧
    b2.state.side_to_move = b.state.side_to_move ∧
    b2.state.halfmove = b.state.halfmove ∧
    b2.state.ep_square = b.state.ep_square ∧
    b2.state.castle_rights = b.state.castle_rights ∧
    b2.prev_states = b.prev_states ∧
    b2.fullmove = b.fullmove := by
  unfold Board.remove_piece at h
  split at h
  · cases h
  · rename_i c p hcell
    cases h
    refine ⟨?_, ?_, ?_, ?_, hcell, rfl, rfl, rfl, rfl, rfl, rfl, rfl⟩
    · unfold Qm pieceXorOfMailbox
      dsimp only
      rw [mbXorFold_set _ _ _ _ hlen]
      have hc : b.mailbox.getD sq.val none = some (c, p) := hcell
      rw [hc]
      simp only [cellZKey, if_true, Nat.xor_zero]
      simp only [Nat.xor_assoc, Nat.xor_comm, xor_left_comm, xor_cancel_left, Nat.xor_self,
        Nat.xor_zero, Nat.zero_xor]
    · simp [hlen]
    · simp [Board.get_piece, List.getD_eq_getElem?_getD,
        List.getElem?_set_self (show sq.val < b.mailbox.length by omega)]
    · intro s hs
      have : sq.val ≠ s.val := fun hv => hs (Fin.eq_of_val_eq hv.symm)
      simp [Board.get_piece, List.getD_eq_getElem?_getD, List.getElem?_set_ne this]

/-- The raw value of a constructed square. -/
theorem mkSq_val (x y : Nat) : (mkSq x y).val = (y % 8) * 8 + x % 8 := rfl

/-- The rank of a constructed square. -/
theorem mkSq_y (x y : Nat) : (mkSq x y).y = y % 8 := by
  simp only [Square.y, mkSq_val]
  omega

/-- The file of a constructed square. -/
theorem mkSq_x (x y : Nat) : (mkSq x y).x = x % 8 := by
  simp only [Square.x, mkSq_val]
  omega

/-- The rank loop keeps the tracked zobrist quantity, the mailbox length,
and the other rows, provided the files it may write are empty. -/
theorem parseRankInto_inv : ∀ (cs : List Char) (y x : Nat) (b b2 : Board),
    parseRankInto y cs x b = some b2 →
    b.mailbox.length = 64 → y ≤ 7 →
    (∀ j, x ≤ j → j < 8 → b.get_piece (mkSq j y) = none) →
    (Qm b2 = Qm b ∧ b2.mailbox.length = 64 ∧
      ∀ s : Square, s.y ≠ y → b2.get_piece s = b.get_piece s) := by
  intro cs
  induction cs with
  | nil =>
    intro y x b b2 h hlen hy hrow
    simp only [parseRankInto] at h
    split at h
    · cases h; exact ⟨rfl, hlen, fun _ _ => rfl⟩
    · cases h
  | cons c rest ih =>
    intro y x b b2 h hlen hy hrow
    simp only [parseRankInto] at h
    split at h
    · cases h
    · rename_i b3 x3 hstep
      split at hstep
      · -- digit: the board is unchanged, the file counter jumps
        cases hstep
        split at h
        · cases h
        · exact ih y _ b b2 h hlen hy (fun j hj1 hj2 => hrow j (by omega) hj2)
      · split at hstep
        · cases hstep
        · -- piece: place on the empty cell (x, y), then continue
          rename_i color piece hpc
          cases hstep
          split at h
          · cases h
          · rename_i hx8
            have hxle : x ≤ 7 := by omega
            have hmod : x % 8 = x := Nat.mod_eq_of_lt (by omega)
            have hcell : b.get_piece (mkSq (x % 8) y) = none := by
              rw [hmod]; exact hrow x (le_refl x) (by omega)
            have hq := Qm_place b color piece (mkSq (x % 8) y) hlen hcell
            have hlen2 : (b.place_piece true color piece (mkSq (x % 8) y)).mailbox.length = 64 := by
              rw [place_mailbox_length]; exact hlen
            have hrow2 : ∀ j, x + 1 ≤ j → j < 8 →
                (b.place_piece true color piece (mkSq (x % 8) y)).get_piece (mkSq j y) = none := by
              intro j hj1 hj2
              have hne : mkSq j y ≠ mkSq (x % 8) y := by
                simp only [mkSq, Ne, Fin.mk.injEq]
                omega
              rw [place_get_piece_ne _ _ _ _ _ _ hne]
              exact hrow j (by omega) hj2
            obtain ⟨hq2, hlen3, hoth⟩ := ih y (x + 1) _ b2 h hlen2 hy hrow2
            refine ⟨hq2.trans hq, hlen3, ?_⟩
            intro s hs
            rw [hoth s hs]
            apply place_get_piece_ne
            intro heq
            apply hs
            rw [heq, mkSq_y]
            omega

/-- The placement fold keeps the tracked zobrist quantity when the rows it
writes start empty. -/
theorem parsePlacement_inv : ∀ (rs : List (List Char)) (i : Nat) (b b2 : Board),
    parsePlacement rs i b = some b2 →
    b.mailbox.length = 64 →
    i + rs.length = 8 →
    (∀ s : Square, s.y + i ≤ 7 → b.get_piece s = none) →
    (Qm b2 = Qm b ∧ b2.mailbox.length = 64) := by
  intro rs
  induction rs with
  | nil =>
    intro i b b2 h hlen hi hrows
    simp only [parsePlacement] at h
    cases h
    exact ⟨rfl, hlen⟩
  | cons r rest ih =>
    intro i b b2 h hlen hi hrows
    simp only [parsePlacement] at h
    split at h
    · cases h
    · rename_i b3 heq
      have hile : i ≤ 7 := by
        have := congrArg id hi
        simp only [List.length_cons, id] at this
        omega
      have hy : 7 - i ≤ 7 := by omega
      obtain ⟨hq, hlen3, hoth⟩ := parseRankInto_inv r (7 - i) 0 b b3 heq hlen hy
        (fun j _ hj2 => hrows (mkSq j (7 - i)) (by rw [mkSq_y]; omega))
      have hrows3 : ∀ s : Square, s.y + (i + 1) ≤ 7 → b3.get_piece s = none := by
        intro s hs
        have hne : s.y ≠ 7 - i := by omega
        rw [hoth s hne]
        exact hrows s (by omega)
      obtain ⟨hq2, hlen4⟩ := ih (i + 1) b3 b2 h hlen3 (by simp at hi ⊢; omega) hrows3
      exact ⟨hq2.trans hq, hlen4⟩

/-- A freshly parsed board carries a zobrist equal to the xor of the keys of
the placed pieces, and a 64-entry mailbox. -/
theorem fromFen_zobrist : ∀ (cs : List Char) (b : Board), fromFen cs = some b →
    b.state.zobrist = pieceXorOfMailbox b.mailbox ∧ b.mailbox.length = 64 := by
  intro cs b h
  unfold fromFen at h
  split at h
  · split at h
    · dsimp only at h
      split at h
      · rename_i hranks
        split at h
        · cases h
        · rename_i b3 heq
          cases h
          obtain ⟨hq, hlen⟩ := parsePlacement_inv _ 0 _ b3 heq (by simp)
            (by simpa using hranks)
            (fun s _ => by
              simp only [Board.get_piece, List.getD_eq_getElem?_getD, List.getElem?_replicate]
              split <;> rfl)
          refine ⟨?_, hlen⟩
          have h0 : Qm b3 = 0 := by
            rw [hq]
            show (0 : Nat) ^^^ pieceXorOfMailbox (List.replicate 64 none) = 0
            decide
          unfold Qm at h0
          have := congrArg (fun t => t ^^^ pieceXorOfMailbox b3.mailbox) h0
          simpa [Nat.xor_assoc, Nat.xor_self, Nat.xor_zero, Nat.zero_xor] using this
      · cases h
    · cases h
  · cases h

/-- Moving an equal xor operand across an equation. -/
theorem xor_move_right (a c d : Nat) (h : a ^^^ c = d) : a = d ^^^ c := by
  rw [← h, Nat.xor_assoc, Nat.xor_self, Nat.xor_zero]

/-- A pseudo-legal non-capture move goes to an empty square: the to-occupied
branch of `is_pseudo_legal` demands a capture. -/
theorem pseudo_to_none (b : Board) (m : Move) (hcap : m.isCapture = false)
    (hp : b.is_pseudo_legal m = true) : b.get_piece m.squares.2 = none := by
  cases hcell : b.get_piece m.squares.2 with
  | none => rfl
  | some cp =>
    exfalso
    obtain ⟨c2, p2⟩ := cp
    unfold Board.is_pseudo_legal at hp
    split at hp
    rename_i f t hsq
    rw [hsq] at hcell
    dsimp only at hcell
    replace hp := hp.symm
    rw [hcell, hcap] at hp
    simp only [Bool.false_and, Bool.not_false, if_true, ite_self, ite_true] at hp
    split at hp <;> cases hp

/-- A pseudo-legal move starts from one of the mover's pieces. -/
theorem pseudo_from_some (b : Board) (m : Move) (hp : b.is_pseudo_legal m = true) :
    ∃ cp : Color × Piece, b.get_piece m.squares.1 = some cp := by
  unfold Board.is_pseudo_legal at hp
  split at hp
  rename_i f t hsq
  replace hp := hp.symm
  rw [hsq]
  split at hp
  · cases hp
  · rename_i color piece heq
    exact ⟨(color, piece), heq⟩

/-- A pseudo-legal castle fixes the destination corner and clears the path
between the king and the matching rook square. -/
theorem pseudo_castle_path (b : Board) (f t : Square)
    (hp : b.is_pseudo_legal (Move.castle f t) = true) :
    (f = SqE1 ∧ t = SqG1 ∧ b.is_path_clear SqE1 SqH1 = true) ∨
    (f = SqE1 ∧ t = SqC1 ∧ b.is_path_clear SqE1 SqA1 = true) ∨
    (f = SqE8 ∧ t = SqG8 ∧ b.is_path_clear SqE8 SqH8 = true) ∨
    (f = SqE8 ∧ t = SqC8 ∧ b.is_path_clear SqE8 SqA8 = true) := by
  unfold Board.is_pseudo_legal at hp
  simp only [Move.squares, Move.isCastle, Move.isEnPassant, Move.isCapture, Move.isPromote,
    Move.isDoublePush, Move.isQuiet, Bool.false_eq_true, if_false, if_true, ite_false,
    ite_true] at hp
  repeat' split at hp
  all_goals (try cases hp)
  all_goals
    (rename_i hft
     simp only [Bool.and_eq_true] at hp
     try exact absurd hp.2 (by decide)
     try
       (obtain ⟨-, ⟨-, hpath⟩, -⟩ := hp
        first
          | exact Or.inl ⟨hft.1, hft.2, hpath⟩
          | exact Or.inr (Or.inl ⟨hft.1, hft.2, hpath⟩)
          | exact Or.inr (Or.inr (Or.inl ⟨hft.1, hft.2, hpath⟩))
          | exact Or.inr (Or.inr (Or.inr ⟨hft.1, hft.2, hpath⟩))))

/-- Inside a clear path every in-between square is empty, for a board whose
total occupancy agrees with its mailbox. -/
theorem path_clear_cell_none (b : Board)
    (hocc : ∀ sq : Square, b.occ.all.testBit sq.val = (b.get_piece sq).isSome)
    (a c k : Square) (h : b.is_path_clear a c = true)
    (hk : bbContains (between a c) k = true) : b.get_piece k = none := by
  unfold Board.is_path_clear bbEmpty at h
  have h0 : between a c &&& b.occ.all = 0 := by
    simpa using h
  have hbit := congrArg (fun n => n.testBit k.val) h0
  simp only [Nat.testBit_and, Nat.zero_testBit] at hbit
  unfold bbContains at hk
  rw [hk, Bool.true_and, hocc k] at hbit
  cases hcell : b.get_piece k with
  | none => rfl
  | some cp => rw [hcell] at hbit; simp at hbit

/-- What a successful Zobrist-updating displacement says: the tracked
quantity is kept when the destination cell is empty, the length survives,
and only the two cells change. -/
theorem Qm_displace (b : Board) (f2 t2 : Square) (cp : Color × Piece) (b2 : Board)
    (hlen : b.mailbox.length = 64)
    (hempty : b.get_piece t2 = none) (hne : t2 ≠ f2)
    (h : b.displace_piece true f2 t2 = some (cp, b2)) :
    Qm b2 = Qm b ∧ b2.mailbox.length = 64 ∧
    (∀ s : Square, s ≠ f2 → s ≠ t2 → b2.get_piece s = b.get_piece s) := by
  unfold Board.displace_piece at h
  split at h
  · cases h
  · rename_i c p b1 heq
    cases h
    obtain ⟨hQ1, hlen1, hremf, hoth, -⟩ := Qm_remove b f2 (c, p) b1 hlen heq
    have ht1 : b1.get_piece t2 = none := by
      rw [hoth t2 hne]
      exact hempty
    refine ⟨(Qm_place b1 c p t2 hlen1 ht1).trans hQ1, ?_, ?_⟩
    · rw [place_mailbox_length]
      exact hlen1
    · intro s hsf hst
      rw [place_get_piece_ne _ _ _ _ _ _ hst]
      exact hoth s hsf

/-- The zobrist key written by a completed pseudo-legal `do_move` on a board
whose occupancy agrees with its mailbox: the complement of the previous key
xored with the key-delta of the mailbox change — piece keys only, no castle
or en-passant contribution. -/
theorem do_move_zobrist (b : Board) (m : Move) (r : Board × Bool)
    (hlen : b.mailbox.length = 64)
    (hocc : ∀ sq : Square, b.occ.all.testBit sq.val = (b.get_piece sq).isSome)
    (hp : b.is_pseudo_legal m = true)
    (h : b.do_move m = some r) :
    r.1.state.zobrist =
      comp64 (b.state.zobrist ^^^ pieceXorOfMailbox b.mailbox ^^^
        pieceXorOfMailbox r.1.mailbox) := by
  cases m with
  | quiet f t =>
    have htnone : b.get_piece t = none := pseudo_to_none b (Move.quiet f t) rfl hp
    unfold Board.do_move at h
    simp only [Move.squares, Move.isCastle, Move.isEnPassant, Move.isCapture, Move.isPromote,
      Move.isDoublePush, Move.isQuiet, Move.getPromote, Move.getCapture, Bool.false_eq_true,
      Bool.true_eq_false, if_false, if_true, ite_false, ite_true] at h
    split at h
    · cases h
    · rename_i color piece b1 heq
      cases h
      obtain ⟨hQ1, hlen1, hremf, hoth, hfrom, -⟩ := Qm_remove _ f (color, piece) b1 (by exact hlen) heq
      have hQ1b : Qm b1 = Qm b := hQ1
      have hfromb : b.get_piece f = some (color, piece) := hfrom
      have hft : t ≠ f := by
        intro hd
        rw [hd, hfromb] at htnone
        cases htnone
      have htb1 : b1.get_piece t = none := by
        rw [hoth t hft]
        exact htnone
      have hQ : Qm (b1.place_piece true color piece t) = Qm b :=
        (Qm_place b1 color piece t hlen1 htb1).trans hQ1b
      unfold Qm at hQ
      exact congrArg comp64 (xor_move_right _ _ _ hQ)
  | doublePush f t =>
    have htnone : b.get_piece t = none := pseudo_to_none b (Move.doublePush f t) rfl hp
    unfold Board.do_move at h
    simp only [Move.squares, Move.isCastle, Move.isEnPassant, Move.isCapture, Move.isPromote,
      Move.isDoublePush, Move.isQuiet, Move.getPromote, Move.getCapture, Bool.false_eq_true,
      Bool.true_eq_false, if_false, if_true, ite_false, ite_true] at h
    split at h
    · cases h
    · rename_i color piece b1 heq
      cases h
      obtain ⟨hQ1, hlen1, hremf, hoth, hfrom, -⟩ := Qm_remove _ f (color, piece) b1 (by exact hlen) heq
      have hQ1b : Qm b1 = Qm b := hQ1
      have hfromb : b.get_piece f = some (color, piece) := hfrom
      have hft : t ≠ f := by
        intro hd
        rw [hd, hfromb] at htnone
        cases htnone
      have htb1 : b1.get_piece t = none := by
        rw [hoth t hft]
        exact htnone
      have hQ : Qm (b1.place_piece true color piece t) = Qm b :=
        (Qm_place b1 color piece t hlen1 htb1).trans hQ1b
      unfold Qm at hQ
      exact congrArg comp64 (xor_move_right _ _ _ hQ)
  | capture f t cap =>
    unfold Board.do_move at h
    simp only [Move.squares, Move.isCastle, Move.isEnPassant, Move.isCapture, Move.isPromote,
      Move.isDoublePush, Move.isQuiet, Move.getPromote, Move.getCapture, Bool.false_eq_true,
      Bool.true_eq_false, if_false, if_true, ite_false, ite_true] at h
    split at h
    · cases h
    · rename_i color piece b1 heq
      rcases hrem2 : Board.remove_piece true b1 t with _ | ⟨cp2, b2⟩
      · rw [hrem2] at h
        cases h
      · rw [hrem2] at h
        cases h
        obtain ⟨hQ1, hlen1, hremf, hoth, hfrom, -⟩ := Qm_remove _ f (color, piece) b1 (by exact hlen) heq
        have hQ1b : Qm b1 = Qm b := hQ1
        obtain ⟨hQ2, hlen2, hremt, hoth2, -⟩ := Qm_remove b1 t cp2 b2 hlen1 hrem2
        have hQ : Qm (b2.place_piece true color piece t) = Qm b :=
          (Qm_place b2 color piece t hlen2 hremt).trans (hQ2.trans hQ1b)
        unfold Qm at hQ
        exact congrArg comp64 (xor_move_right _ _ _ hQ)
  | enPassant f t =>
    have htnone : b.get_piece t = none := pseudo_to_none b (Move.enPassant f t) rfl hp
    unfold Board.do_move at h
    simp only [Move.squares, Move.isCastle, Move.isEnPassant, Move.isCapture, Move.isPromote,
      Move.isDoublePush, Move.isQuiet, Move.getPromote, Move.getCapture, Bool.false_eq_true,
      Bool.true_eq_false, if_false, if_true, ite_false, ite_true] at h
    split at h
    · cases h
    · rename_i color piece b1 heq
      rcases hep : b1.state.ep_square with _ | ep
      · rw [hep] at h
        cases h
      · rw [hep] at h
        dsimp only at h
        rcases hrem2 : Board.remove_piece true b1 ep with _ | ⟨cp2, b2⟩
        · rw [hrem2] at h
          cases h
        · rw [hrem2] at h
          cases h
          obtain ⟨hQ1, hlen1, hremf, hoth1, hfrom, -⟩ := Qm_remove _ f (color, piece) b1 (by exact hlen) heq
          have hQ1b : Qm b1 = Qm b := hQ1
          have hfromb : b.get_piece f = some (color, piece) := hfrom
          have hft : t ≠ f := by
            intro hd
            rw [hd, hfromb] at htnone
            cases htnone
          have htb1 : b1.get_piece t = none := by
            rw [hoth1 t hft]
            exact htnone
          obtain ⟨hQ2, hlen2, hremep, hoth2, hepcell, -⟩ := Qm_remove b1 ep cp2 b2 hlen1 hrem2
          have htep : t ≠ ep := by
            intro hd
            rw [← hd, htb1] at hepcell
            cases hepcell
          have htb2 : b2.get_piece t = none := by
            rw [hoth2 t htep]
            exact htb1
          have hQ : Qm (b2.place_piece true color piece t) = Qm b :=
            (Qm_place b2 color piece t hlen2 htb2).trans (hQ2.trans hQ1b)
          unfold Qm at hQ
          exact congrArg comp64 (xor_move_right _ _ _ hQ)
  | castle f t =>
    have htnone : b.get_piece t = none := pseudo_to_none b (Move.castle f t) rfl hp
    have hpath := pseudo_castle_path b f t hp
    unfold Board.do_move at h
    simp only [Move.squares, Move.isCastle, Move.isEnPassant, Move.isCapture, Move.isPromote,
      Move.isDoublePush, Move.isQuiet, Move.getPromote, Move.getCapture, Bool.false_eq_true,
      Bool.true_eq_false, if_false, if_true, ite_false, ite_true] at h
    split at h
    · cases h
    · rename_i color piece b1 heq
      obtain ⟨hQ1, hlen1, hremf, hoth1, hfrom, -⟩ := Qm_remove _ f (color, piece) b1 (by exact hlen) heq
      have hQ1b : Qm b1 = Qm b := hQ1
      have hfromb : b.get_piece f = some (color, piece) := hfrom
      rcases hpath with ⟨hf, ht, hpathc⟩ | ⟨hf, ht, hpathc⟩ | ⟨hf, ht, hpathc⟩ | ⟨hf, ht, hpathc⟩ <;>
        subst hf <;> subst ht
      · rw [if_pos rfl] at h
        rcases hdisp : Board.displace_piece true b1 SqH1 SqF1 with _ | ⟨cp4, b2⟩
        · rw [hdisp] at h
          cases h
        · rw [hdisp] at h
          cases h
          have hRb : b.get_piece SqF1 = none :=
            path_clear_cell_none b hocc SqE1 SqH1 SqF1 hpathc (by decide)
          have hR : b1.get_piece SqF1 = none := by
            rw [hoth1 SqF1 (by decide)]
            exact hRb
          obtain ⟨hQ2, hlen2, hoth2⟩ := Qm_displace b1 SqH1 SqF1 cp4 b2 hlen1 hR (by decide) hdisp
          have hKb1 : b1.get_piece SqG1 = none := by
            rw [hoth1 SqG1 (by decide)]
            exact htnone
          have hK : b2.get_piece SqG1 = none := by
            rw [hoth2 SqG1 (by decide) (by decide)]
            exact hKb1
          have hQ : Qm (b2.place_piece true color piece SqG1) = Qm b :=
            (Qm_place b2 color piece SqG1 hlen2 hK).trans (hQ2.trans hQ1b)
          unfold Qm at hQ
          exact congrArg comp64 (xor_move_right _ _ _ hQ)
      · rw [if_neg (by decide), if_neg (by decide), if_pos rfl] at h
        rcases hdisp : Board.displace_piece true b1 SqA1 SqD1 with _ | ⟨cp4, b2⟩
        · rw [hdisp] at h
          cases h
        · rw [hdisp] at h
          cases h
          have hRb : b.get_piece SqD1 = none :=
            path_clear_cell_none b hocc SqE1 SqA1 SqD1 hpathc (by decide)
          have hR : b1.get_piece SqD1 = none := by
            rw [hoth1 SqD1 (by decide)]
            exact hRb
          obtain ⟨hQ2, hlen2, hoth2⟩ := Qm_displace b1 SqA1 SqD1 cp4 b2 hlen1 hR (by decide) hdisp
          have hKb1 : b1.get_piece SqC1 = none := by
            rw [hoth1 SqC1 (by decide)]
            exact htnone
          have hK : b2.get_piece SqC1 = none := by
            rw [hoth2 SqC1 (by decide) (by decide)]
            exact hKb1
          have hQ : Qm (b2.place_piece true color piece SqC1) = Qm b :=
            (Qm_place b2 color piece SqC1 hlen2 hK).trans (hQ2.trans hQ1b)
          unfold Qm at hQ
          exact congrArg comp64 (xor_move_right _ _ _ hQ)
      · rw [if_neg (by decide), if_pos rfl] at h
        rcases hdisp : Board.displace_piece true b1 SqH8 SqF8 with _ | ⟨cp4, b2⟩
        · rw [hdisp] at h
          cases h
        · rw [hdisp] at h
          cases h
          have hRb : b.get_piece SqF8 = none :=
            path_clear_cell_none b hocc SqE8 SqH8 SqF8 hpathc (by decide)
          have hR : b1.get_piece SqF8 = none := by
            rw [hoth1 SqF8 (by decide)]
            exact hRb
          obtain ⟨hQ2, hlen2, hoth2⟩ := Qm_displace b1 SqH8 SqF8 cp4 b2 hlen1 hR (by decide) hdisp
          have hKb1 : b1.get_piece SqG8 = none := by
            rw [hoth1 SqG8 (by decide)]
            exact htnone
          have hK : b2.get_piece SqG8 = none := by
            rw [hoth2 SqG8 (by decide) (by decide)]
            exact hKb1
          have hQ : Qm (b2.place_piece true color piece SqG8) = Qm b :=
            (Qm_place b2 color piece SqG8 hlen2 hK).trans (hQ2.trans hQ1b)
          unfold Qm at hQ
          exact congrArg comp64 (xor_move_right _ _ _ hQ)
      · rw [if_neg (by decide), if_neg (by decide), if_neg (by decide), if_pos rfl] at h
        rcases hdisp : Board.displace_piece true b1 SqA8 SqD8 with _ | ⟨cp4, b2⟩
        · rw [hdisp] at h
          cases h
        · rw [hdisp] at h
          cases h
          have hRb : b.get_piece SqD8 = none :=
            path_clear_cell_none b hocc SqE8 SqA8 SqD8 hpathc (by decide)
          have hR : b1.get_piece SqD8 = none := by
            rw [hoth1 SqD8 (by decide)]
            exact hRb
          obtain ⟨hQ2, hlen2, hoth2⟩ := Qm_displace b1 SqA8 SqD8 cp4 b2 hlen1 hR (by decide) hdisp
          have hKb1 : b1.get_piece SqC8 = none := by
            rw [hoth1 SqC8 (by decide)]
            exact htnone
          have hK : b2.get_piece SqC8 = none := by
            rw [hoth2 SqC8 (by decide) (by decide)]
            exact hKb1
          have hQ : Qm (b2.place_piece true color piece SqC8) = Qm b :=
            (Qm_place b2 color piece SqC8 hlen2 hK).trans (hQ2.trans hQ1b)
          unfold Qm at hQ
          exact congrArg comp64 (xor_move_right _ _ _ hQ)
  | promote f t pr =>
    have htnone : b.get_piece t = none := pseudo_to_none b (Move.promote f t pr) rfl hp
    unfold Board.do_move at h
    simp only [Move.squares, Move.isCastle, Move.isEnPassant, Move.isCapture, Move.isPromote,
      Move.isDoublePush, Move.isQuiet, Move.getPromote, Move.getCapture, Bool.false_eq_true,
      Bool.true_eq_false, if_false, if_true, ite_false, ite_true] at h
    split at h
    · cases h
    · rename_i color piece b1 heq
      cases h
      obtain ⟨hQ1, hlen1, hremf, hoth, hfrom, -⟩ := Qm_remove _ f (color, piece) b1 (by exact hlen) heq
      have hQ1b : Qm b1 = Qm b := hQ1
      have hfromb : b.get_piece f = some (color, piece) := hfrom
      have hft : t ≠ f := by
        intro hd
        rw [hd, hfromb] at htnone
        cases htnone
      have htb1 : b1.get_piece t = none := by
        rw [hoth t hft]
        exact htnone
      have hQ : Qm (b1.place_piece true color pr t) = Qm b :=
        (Qm_place b1 color pr t hlen1 htb1).trans hQ1b
      unfold Qm at hQ
      exact congrArg comp64 (xor_move_right _ _ _ hQ)
  | promoteCapture f t cap pr =>
    unfold Board.do_move at h
    simp only [Move.squares, Move.isCastle, Move.isEnPassant, Move.isCapture, Move.isPromote,
      Move.isDoublePush, Move.isQuiet, Move.getPromote, Move.getCapture, Bool.false_eq_true,
      Bool.true_eq_false, if_false, if_true, ite_false, ite_true] at h
    split at h
    · cases h
    · rename_i color piece b1 heq
      rcases hrem2 : Board.remove_piece true b1 t with _ | ⟨cp2, b2⟩
      · rw [hrem2] at h
        cases h
      · rw [hrem2] at h
        cases h
        obtain ⟨hQ1, hlen1, hremf, hoth, hfrom, -⟩ := Qm_remove _ f (color, piece) b1 (by exact hlen) heq
        have hQ1b : Qm b1 = Qm b := hQ1
        obtain ⟨hQ2, hlen2, hremt, hoth2, -⟩ := Qm_remove b1 t cp2 b2 hlen1 hrem2
        have hQ : Qm (b2.place_piece true color pr t) = Qm b :=
          (Qm_place b2 color pr t hlen2 hremt).trans (hQ2.trans hQ1b)
        unfold Qm at hQ
        exact congrArg comp64 (xor_move_right _ _ _ hQ)


/-- The composite castle-rights key the claim describes: the xor of the keys
of the held rights. -/
def castleComposite (r : CastleRights) : Nat :=
  (List.finRange 4).foldr (fun i acc => (if r.testBit i.val then castleKey i else 0) ^^^ acc) 0

/-- The zobrist key the claim describes: piece-square keys, the side key when
Black is to move, the castle-rights composite, and the en-passant file key
when the target is set. -/
def claimZobrist (b : Board) : Nat :=
  pieceXorOfMailbox b.mailbox ^^^
  (if b.state.side_to_move = Color.Black then sideKey else 0) ^^^
  castleComposite b.state.castle_rights ^^^
  (match b.state.ep_square with
   | some sq => epKey sq.x
   | none => 0)

/-- A bare-kings position with Black to move, no rights, no target. -/
def blackFen : List Char := "4k3/8/8/8/8/8/8/4K3 b - - 0 1".toList

/-- The parsed Black-to-move position. -/
def blackBoard : Board := (fromFen blackFen).getD dummyBoard

/-- C3, counterexample.  The claim: the stored zobrist carries the
side-to-move key whenever Black is to move (and the castle and en-passant
composites).  A board built from a Black-to-move FEN stores only the xor of
the piece keys: construction never mixes the side key, so the claimed value
differs by the all-ones side key. -/
theorem c3_zobrist_claim_fails :
    fromFen blackFen = some blackBoard ∧
    blackBoard.state.side_to_move = Color.Black ∧
    blackBoard.state.castle_rights = 0 ∧
    blackBoard.state.ep_square = none ∧
    blackBoard.state.zobrist = pieceXorOfMailbox blackBoard.mailbox ∧
    blackBoard.state.zobrist ≠ claimZobrist blackBoard := by
  decide

/-- C3, amended.  After FEN construction the zobrist equals the xor of the
piece-square keys of the pieces present, with no side, castle or en-passant
contribution; and each completed pseudo-legal `do_move` (on a board whose
occupancy agrees with its mailbox) complements the key and xors exactly the
piece-square keys of the mailbox change — so the stored key is the piece
xor, complemented once per move applied, and castle rights and the
en-passant target never enter it. -/
theorem c3_zobrist_amended :
    (∀ (cs : List Char) (b : Board), fromFen cs = some b →
      b.state.zobrist = pieceXorOfMailbox b.mailbox) ∧
    (∀ (b : Board) (m : Move) (r : Board × Bool),
      b.mailbox.length = 64 →
      (∀ sq : Square, b.occ.all.testBit sq.val = (b.get_piece sq).isSome) →
      b.is_pseudo_legal m = true → b.do_move m = some r →
      r.1.state.zobrist = comp64 (b.state.zobrist ^^^ pieceXorOfMailbox b.mailbox ^^^
        pieceXorOfMailbox r.1.mailbox)) :=
  ⟨fun cs b h => (fromFen_zobrist cs b h).1, do_move_zobrist⟩

/-- C3, witness for the amended theorem: the start position and the double
push e2e4 applied to it. -/
theorem c3_zobrist_amended_witness :
    startBoard.state.zobrist = pieceXorOfMailbox startBoard.mailbox ∧
    (startBoard.do_move (Move.doublePush SqE2 SqE4)).map
      (fun r => (r.1.state.zobrist == comp64 (startBoard.state.zobrist ^^^
        pieceXorOfMailbox startBoard.mailbox ^^^ pieceXorOfMailbox r.1.mailbox) : Bool))
      = some true := by
  constructor
  · exact c3_zobrist_amended.1 startFen startBoard (by decide)
  · cases h : startBoard.do_move (Move.doublePush SqE2 SqE4) with
    | none => exact absurd h (by decide)
    | some r =>
      rw [Option.map_some',
        c3_zobrist_amended.2 startBoard (Move.doublePush SqE2 SqE4) r (by decide) (by decide)
          (by decide) h]
      simp

/-- Splitting a separator-free chunk yields just that chunk. -/
theorem splitOnChar_not_mem (sep : Char) : ∀ (l : List Char), sep ∉ l →
    splitOnChar sep l = [l] := by
  intro l
  induction l with
  | nil => intro _; rfl
  | cons c rest ih =>
    intro hmem
    have hc : ¬c = sep := fun hc => hmem (hc ▸ List.mem_cons_self _ _)
    simp only [splitOnChar, if_neg hc]
    rw [ih (fun hr => hmem (List.mem_cons_of_mem _ hr))]

/-- Splitting past a separator-free prefix peels one chunk. -/
theorem splitOnChar_append (sep : Char) : ∀ (a rest : List Char), sep ∉ a →
    splitOnChar sep (a ++ sep :: rest) = a :: splitOnChar sep rest := by
  intro a
  induction a with
  | nil =>
    intro rest _
    simp [splitOnChar]
  | cons c a ih =>
    intro rest hmem
    have hc : ¬c = sep := fun hc => hmem (hc ▸ List.mem_cons_self _ _)
    simp only [List.cons_append, splitOnChar, if_neg hc, List.append_eq]
    rw [ih rest (fun hr => hmem (List.mem_cons_of_mem _ hr))]

/-- Splitting the join of separator-free chunks recovers the chunks. -/
theorem splitOnChar_joinSep (sep : Char) : ∀ (gs : List (List Char)), gs ≠ [] →
    (∀ g ∈ gs, sep ∉ g) → splitOnChar sep (joinSep sep gs) = gs := by
  intro gs
  induction gs with
  | nil => intro h _; cases h rfl
  | cons g rest ih =>
    intro _ hfree
    cases rest with
    | nil =>
      simp only [joinSep]
      exact splitOnChar_not_mem sep g (hfree g (List.mem_cons_self _ _))
    | cons g2 rest2 =>
      show splitOnChar sep (g ++ sep :: joinSep sep (g2 :: rest2)) = _
      rw [splitOnChar_append sep g _ (hfree g (List.mem_cons_self _ _))]
      rw [ih (by simp) (fun x hx => hfree x (List.mem_cons_of_mem _ hx))]

/-- The characters of one emitted rank: a streak digit between 1 and 8, or a
piece letter. -/
theorem emitRankAux_mem : ∀ (cells : List Cell) (s : Nat), s + cells.length ≤ 8 →
    ∀ ch ∈ emitRankAux cells s,
      (∃ n, 1 ≤ n ∧ n ≤ 8 ∧ ch = Char.ofNat (48 + n)) ∨
      ∃ c p, ch = coloredPieceChar c p := by
  intro cells
  induction cells with
  | nil =>
    intro s hs ch hch
    simp only [emitRankAux] at hch
    split at hch
    · rename_i hs0
      rcases List.mem_singleton.mp hch with rfl
      exact Or.inl ⟨s, by omega, by omega, rfl⟩
    · cases hch
  | cons cell rest ih =>
    intro s hs ch hch
    match cell with
    | none =>
      exact ih (s + 1) (by simp at hs ⊢; omega) ch hch
    | some (c, p) =>
      simp only [emitRankAux] at hch
      rcases List.mem_append.mp hch with hd | ht
      · split at hd
        · rcases List.mem_singleton.mp hd with rfl
          exact Or.inl ⟨s, by omega, by simp at hs; omega, rfl⟩
        · cases hd
      · rcases List.mem_cons.mp ht with rfl | hr
        · exact Or.inr ⟨c, p, rfl⟩
        · exact ih 0 (by simp at hs ⊢; omega) ch hr

/-- No piece letter is a space or a slash. -/
theorem coloredPieceChar_ne : ∀ (c : Color) (p : Piece),
    coloredPieceChar c p ≠ ' ' ∧ coloredPieceChar c p ≠ '/' := by
  decide

/-- No streak digit is a space or a slash. -/
theorem digitChar_ne : ∀ n, 1 ≤ n → n ≤ 8 →
    Char.ofNat (48 + n) ≠ ' ' ∧ Char.ofNat (48 + n) ≠ '/' := by
  intro n h1 h2
  interval_cases n <;> exact ⟨by decide, by decide⟩

/-- The characters of the emitted board field are neither spaces nor
slashes apart from the rank separators. -/
theorem emitRank_no_sep (b : Board) (y : Nat) :
    ∀ ch ∈ emitRankAux (rankCells b y) 0, ch ≠ ' ' ∧ ch ≠ '/' := by
  intro ch hch
  have hlen : (0 : Nat) + (rankCells b y).length ≤ 8 := by
    simp [rankCells]
  rcases emitRankAux_mem (rankCells b y) 0 hlen ch hch with ⟨n, h1, h2, rfl⟩ | ⟨c, p, rfl⟩
  · exact digitChar_ne n h1 h2
  · exact coloredPieceChar_ne c p

/-- Membership in a join comes from the separator or one of the chunks. -/
theorem joinSep_mem (sep : Char) : ∀ (gs : List (List Char)) (ch : Char),
    ch ∈ joinSep sep gs → ch = sep ∨ ∃ g ∈ gs, ch ∈ g := by
  intro gs
  induction gs with
  | nil => intro ch h; cases h
  | cons g rest ih =>
    intro ch h
    cases rest with
    | nil =>
      exact Or.inr ⟨g, List.mem_cons_self _ _, h⟩
    | cons g2 rest2 =>
      rcases List.mem_append.mp h with hg | hs
      · exact Or.inr ⟨g, List.mem_cons_self _ _, hg⟩
      · rcases List.mem_cons.mp hs with rfl | hj
        · exact Or.inl rfl
        · rcases ih ch hj with rfl | ⟨g3, hg3, hch⟩
          · exact Or.inl rfl
          · exact Or.inr ⟨g3, List.mem_cons_of_mem _ hg3, hch⟩

/-- The board field never contains a space. -/
theorem boardField_no_space (b : Board) : ' ' ∉ boardFieldChars b := by
  intro hmem
  unfold boardFieldChars at hmem
  rcases joinSep_mem '/' _ ' ' hmem with h | ⟨g, hg, hch⟩
  · cases h
  · rcases List.mem_map.mp hg with ⟨y, -, rfl⟩
    exact (emitRank_no_sep b y ' ' hch).1 rfl

/-- Every character of a decimal rendering is a digit. -/
theorem natChars_digits : ∀ n, ∀ ch ∈ natChars n, ∃ d, d < 10 ∧ ch = Char.ofNat (48 + d) := by
  intro n
  induction n using Nat.strong_induction_on with
  | _ n ih =>
    intro ch hch
    rw [natChars] at hch
    split at hch
    · rename_i h10
      rcases List.mem_singleton.mp hch with rfl
      exact ⟨n, by omega, rfl⟩
    · rename_i h10
      rcases List.mem_append.mp hch with hd | ht
      · exact ih (n / 10) (Nat.div_lt_self (by omega) (by omega)) ch hd
      · rcases List.mem_singleton.mp ht with rfl
        exact ⟨n % 10, Nat.mod_lt _ (by omega), rfl⟩

/-- A decimal rendering is never empty. -/
theorem natChars_ne_nil (n : Nat) : natChars n ≠ [] := by
  rw [natChars]
  split
  · simp
  · simp

/-- A decimal rendering never contains a space. -/
theorem natChars_no_space (n : Nat) : ' ' ∉ natChars n := by
  intro hmem
  rcases natChars_digits n ' ' hmem with ⟨d, hd, he⟩
  interval_cases d <;> cases he

/-- Digit parsing inverts the digit rendering. -/
theorem charDigit_ofNat (d : Nat) (h : d < 10) : charDigit (Char.ofNat (48 + d)) = some d := by
  interval_cases d <;> decide

/-- The accumulator threads through a split of the digit string. -/
theorem parseNatAux_append : ∀ (xs ys : List Char) (acc : Nat),
    parseNatAux (xs ++ ys) acc =
      match parseNatAux xs acc with
      | none => none
      | some v => parseNatAux ys v := by
  intro xs
  induction xs with
  | nil => intro ys acc; rfl
  | cons c rest ih =>
    intro ys acc
    simp only [List.cons_append, parseNatAux]
    split
    · rfl
    · rename_i d hd
      exact ih ys (acc * 10 + d)

/-- Parsing the decimal rendering recovers the value under any accumulator. -/
theorem parseNatAux_natChars : ∀ n acc,
    parseNatAux (natChars n) acc = some (acc * 10 ^ (natChars n).length + n) := by
  intro n
  induction n using Nat.strong_induction_on with
  | _ n ih =>
    intro acc
    rw [natChars]
    split
    · rename_i h10
      simp only [parseNatAux, charDigit_ofNat n h10]
      simp [pow_succ]
    · rename_i h10
      rw [parseNatAux_append, ih (n / 10) (Nat.div_lt_self (by omega) (by omega)) acc]
      simp only [parseNatAux, charDigit_ofNat (n % 10) (Nat.mod_lt _ (by omega))]
      rw [List.length_append, List.length_singleton, pow_succ]
      congr 1
      have : acc * (10 ^ (natChars (n / 10)).length * 10) =
          acc * 10 ^ (natChars (n / 10)).length * 10 := by ring
      rw [this]
      omega

/-- The bounded parser inverts the decimal rendering of an in-range value. -/
theorem parseBoundedNat_natChars (bound n : Nat) (h : n < bound) :
    parseBoundedNat bound (natChars n) = some n := by
  unfold parseBoundedNat
  rw [if_neg (by simpa using natChars_ne_nil n), parseNatAux_natChars n 0]
  simp [h]

/-- The side-to-move field round trips. -/
theorem color_roundtrip : ∀ c, colorFromChars (colorChars c) = some c := by
  decide

/-- The castle-rights field round trips on 4-bit values. -/
theorem cr_roundtrip : ∀ r, r < 16 → crFromChars (crChars r) = some r := by
  intro r h
  interval_cases r <;> decide

/-- The en-passant field round trips. -/
theorem ep_roundtrip : ∀ ep : Option Square, epFromChars (epChars ep) = some ep := by
  intro ep
  cases ep with
  | none => rfl
  | some sq => revert sq; decide

/-- The side field never contains a space. -/
theorem colorChars_no_space : ∀ c, ' ' ∉ colorChars c := by
  decide

/-- The castle field never contains a space. -/
theorem crChars_no_space : ∀ r, r < 16 → ' ' ∉ crChars r := by
  intro r h
  interval_cases r <;> decide

/-- The en-passant field never contains a space. -/
theorem epChars_no_space : ∀ ep : Option Square, ' ' ∉ epChars ep := by
  intro ep
  cases ep with
  | none => decide
  | some sq => revert sq; decide

/-- Splitting an emitted FEN on spaces yields exactly the six fields. -/
theorem splitOnChar_toFen (b : Board) (hcr : b.state.castle_rights < 16) :
    splitOnChar ' ' b.toFen =
      [boardFieldChars b, colorChars b.state.side_to_move,
       crChars b.state.castle_rights, epChars b.state.ep_square,
       natChars b.state.halfmove, natChars b.fullmove] := by
  unfold Board.toFen
  simp only [List.cons_append, List.append_assoc]
  rw [splitOnChar_append _ _ _ (boardField_no_space b),
      splitOnChar_append _ _ _ (colorChars_no_space _),
      splitOnChar_append _ _ _ (crChars_no_space _ hcr),
      splitOnChar_append _ _ _ (epChars_no_space _),
      splitOnChar_append _ _ _ (natChars_no_space _),
      splitOnChar_not_mem _ _ (natChars_no_space _)]

/-- Replay the cells of one rank onto a board, walking the files left to
right and placing the occupied cells. -/
def placeCells (y : Nat) : List Cell → Nat → Board → Board
  | [], _, bb => bb
  | none :: rest, fx, bb => placeCells y rest (fx + 1) bb
  | some (c, p) :: rest, fx, bb =>
    placeCells y rest (fx + 1) (bb.place_piece true c p (mkSq fx y))

/-- Piece letters parse back to their pieces. -/
theorem pieceFromChar_roundtrip : ∀ (c : Color) (p : Piece),
    pieceFromChar (coloredPieceChar c p) = some (c, p) := by
  decide

/-- Piece letters are not rank digits. -/
theorem coloredPieceChar_not_digit : ∀ (c : Color) (p : Piece),
    ¬('1' ≤ coloredPieceChar c p ∧ coloredPieceChar c p ≤ '8') := by
  decide

/-- The code of a streak digit. -/
theorem digit_toNat (s : Nat) (h : s ≤ 8) : (Char.ofNat (48 + s)).toNat = 48 + s := by
  interval_cases s <;> decide

/-- A streak digit lies between the characters 1 and 8. -/
theorem digit_in_range (s : Nat) (h1 : 1 ≤ s) (h8 : s ≤ 8) :
    '1' ≤ Char.ofNat (48 + s) ∧ Char.ofNat (48 + s) ≤ '8' := by
  interval_cases s <;> exact ⟨by decide, by decide⟩

/-- Parsing a streak digit advances the file counter by the streak. -/
theorem parse_digit_step (s x y : Nat) (L : List Char) (bb : Board)
    (h1 : 1 ≤ s) (h8 : s ≤ 8) (hxs : x + s ≤ 8) :
    parseRankInto y (Char.ofNat (48 + s) :: L) x bb = parseRankInto y L (x + s) bb := by
  simp only [parseRankInto]
  rw [if_pos (digit_in_range s h1 h8)]
  dsimp only
  rw [digit_toNat s h8]
  rw [if_neg (by omega)]
  have hx : x + (48 + s - 49) + 1 = x + s := by omega
  rw [hx]

/-- Parsing a piece letter places the piece and advances one file. -/
theorem parse_piece_step (c : Color) (p : Piece) (L : List Char) (x y : Nat) (bb : Board)
    (hx : x + 1 ≤ 8) :
    parseRankInto y (coloredPieceChar c p :: L) x bb =
      parseRankInto y L (x + 1) (bb.place_piece true c p (mkSq (x % 8) y)) := by
  simp only [parseRankInto]
  rw [if_neg (coloredPieceChar_not_digit c p), pieceFromChar_roundtrip]
  dsimp only
  rw [if_neg (by omega)]

/-- Parsing an emitted rank replays exactly its cells. -/
theorem parse_emitRank : ∀ (cells : List Cell) (s x y : Nat) (bb : Board),
    x + s + cells.length = 8 →
    parseRankInto y (emitRankAux cells s) x bb = some (placeCells y cells (x + s) bb) := by
  intro cells
  induction cells with
  | nil =>
    intro s x y bb hsum
    simp only [List.length_nil, Nat.add_zero] at hsum
    by_cases hs : s = 0
    · subst hs
      rw [show emitRankAux [] 0 = [] from rfl]
      simp only [parseRankInto]
      rw [if_pos (by omega)]
      rfl
    · rw [show emitRankAux [] s = [Char.ofNat (48 + s)] from by simp [emitRankAux, hs]]
      rw [parse_digit_step s x y [] bb (by omega) (by omega) (by omega)]
      simp only [parseRankInto]
      rw [if_pos (by omega)]
      rfl
  | cons cell rest ih =>
    intro s x y bb hsum
    match cell with
    | none =>
      have h2 : x + (s + 1) + rest.length = 8 := by simp at hsum ⊢; omega
      have hrec := ih (s + 1) x y bb h2
      rw [show emitRankAux (none :: rest) s = emitRankAux rest (s + 1) from rfl]
      exact hrec
    | some (c, p) =>
      have hx : x + s ≤ 7 := by simp at hsum; omega
      by_cases hs : s = 0
      · subst hs
        rw [show emitRankAux (some (c, p) :: rest) 0 =
              coloredPieceChar c p :: emitRankAux rest 0 from by simp [emitRankAux]]
        rw [parse_piece_step c p _ x y bb (by omega)]
        rw [ih 0 (x + 1) y _ (by simp at hsum ⊢; omega)]
        rw [Nat.mod_eq_of_lt (show x < 8 by omega)]
        rfl
      · rw [show emitRankAux (some (c, p) :: rest) s =
              Char.ofNat (48 + s) :: coloredPieceChar c p :: emitRankAux rest 0 from by
                simp [emitRankAux, hs]]
        rw [parse_digit_step s x y _ bb (by omega) (by omega) (by omega)]
        rw [parse_piece_step c p _ (x + s) y bb (by omega)]
        rw [ih 0 (x + s + 1) y _ (by simp at hsum ⊢; omega)]
        rw [Nat.mod_eq_of_lt (show x + s < 8 by omega)]
        rfl

/-- The rank of every square is below 8. -/
theorem sq_y_lt (s : Square) : s.y < 8 := by
  have := s.isLt
  simp only [Square.y]
  omega

/-- The file of every square is below 8. -/
theorem sq_x_lt (s : Square) : s.x < 8 := by
  have := s.isLt
  simp only [Square.x]
  omega

/-- Rebuilding a square from its coordinates gives it back. -/
theorem mkSq_self (s : Square) : mkSq s.x s.y = s := by
  apply Fin.ext
  rw [mkSq_val]
  have := s.isLt
  simp only [Square.x, Square.y]
  omega

/-- Reading back the set entry of a list. -/
theorem getD_set_self_lt (l : List Nat) (n v : Nat) (h : n < l.length) :
    (l.set n v).getD n 0 = v := by
  simp [List.getD_eq_getElem?_getD, List.getElem?_set_self h]

/-- Reading another entry of a set list. -/
theorem getD_set_ne_nat (l : List Nat) (n m v : Nat) (h : n ≠ m) :
    (l.set n v).getD m 0 = l.getD m 0 := by
  simp [List.getD_eq_getElem?_getD, List.getElem?_set_ne h]

/-- Distinct colored pieces get distinct flat bitboard indices. -/
theorem idx_ne : ∀ (c c' : Color) (p p' : Piece), ¬(c = c' ∧ p = p') →
    c.idx * 6 + p.idx ≠ c'.idx * 6 + p'.idx := by
  decide

/-- Distinct colors get distinct occupancy indices. -/
theorem color_idx_ne : ∀ (c c' : Color), c ≠ c' → c.idx ≠ c'.idx := by
  decide

/-- Flat bitboard indices stay below 12. -/
theorem idx_lt : ∀ (c : Color) (p : Piece), c.idx * 6 + p.idx < 12 := by
  decide

/-- Color indices stay below 2. -/
theorem color_idx_lt : ∀ c : Color, c.idx < 2 := by
  decide

/-- Reading back a just-placed piece. -/
theorem place_get_piece_self (z : Bool) (b : Board) (c : Color) (p : Piece) (sq : Square)
    (h : sq.val < b.mailbox.length) :
    (b.place_piece z c p sq).get_piece sq = some (c, p) := by
  simp [Board.place_piece, Board.get_piece, List.getD_eq_getElem?_getD,
    List.getElem?_set_self h]

/-- Placing a piece on an empty cell keeps the bitboards, the total occupancy
and the colored occupancies equal to the folds their mailbox induces. -/
theorem place_consistent (z : Bool) (b : Board) (c : Color) (p : Piece) (sq : Square)
    (hmb : b.mailbox.length = 64) (hbl : b.bitboards.length = 12)
    (hcl : b.occ.colored.length = 2)
    (hcell : b.get_piece sq = none)
    (hbb : ∀ c' p', b.get_bitboard c' p' = bbOfMailbox b.mailbox c' p')
    (hall : b.occ.all = occAllOfMailbox b.mailbox)
    (hcol : ∀ c', b.occ.colored.getD c'.idx 0 = occColorOfMailbox b.mailbox c') :
    (b.place_piece z c p sq).bitboards.length = 12 ∧
    (b.place_piece z c p sq).occ.colored.length = 2 ∧
    (∀ c' p', (b.place_piece z c p sq).get_bitboard c' p' =
      bbOfMailbox (b.place_piece z c p sq).mailbox c' p') ∧
    (b.place_piece z c p sq).occ.all = occAllOfMailbox (b.place_piece z c p sq).mailbox ∧
    (∀ c', (b.place_piece z c p sq).occ.colored.getD c'.idx 0 =
      occColorOfMailbox (b.place_piece z c p sq).mailbox c') := by
  have hc0 : b.mailbox.getD sq.val none = none := hcell
  refine ⟨?_, ?_, ?_, ?_, ?_⟩
  · simp [Board.place_piece, hbl]
  · simp [Board.place_piece, Occupancy.update, hcl]
  · intro c' p'
    show (b.bitboards.set (c.idx * 6 + p.idx)
        (b.bitboards.getD (c.idx * 6 + p.idx) 0 ^^^ bbSquare sq)).getD (c'.idx * 6 + p'.idx) 0 =
      bbOfMailbox (b.mailbox.set sq.val (some (c, p))) c' p'
    unfold bbOfMailbox
    rw [mbXorFold_set _ _ _ _ hmb, hc0]
    by_cases hcp : c = c' ∧ p = p'
    · obtain ⟨rfl, rfl⟩ := hcp
      rw [getD_set_self_lt _ _ _ (by rw [hbl]; exact idx_lt c p)]
      have := hbb c p
      rw [show b.bitboards.getD (c.idx * 6 + p.idx) 0 = bbOfMailbox b.mailbox c p from hbb c p]
      simp [cellBB, bbOfMailbox]
    · rw [getD_set_ne_nat _ _ _ _ (idx_ne c c' p p' hcp)]
      have hne : (some (c, p) : Cell) ≠ some (c', p') := by
        intro hcontra
        apply hcp
        cases hcontra
        exact ⟨rfl, rfl⟩
      rw [show b.bitboards.getD (c'.idx * 6 + p'.idx) 0 = bbOfMailbox b.mailbox c' p'
        from hbb c' p']
      simp [cellBB, hne, bbOfMailbox]
  · show b.occ.all ^^^ bbSquare sq = occAllOfMailbox (b.mailbox.set sq.val (some (c, p)))
    unfold occAllOfMailbox
    rw [mbXorFold_set _ _ _ _ hmb, hc0, show b.occ.all = occAllOfMailbox b.mailbox from hall]
    simp [cellOccAll, occAllOfMailbox]
  · intro c'
    show (b.occ.colored.set c.idx (b.occ.colored.getD c.idx 0 ^^^ bbSquare sq)).getD c'.idx 0 =
      occColorOfMailbox (b.mailbox.set sq.val (some (c, p))) c'
    unfold occColorOfMailbox
    rw [mbXorFold_set _ _ _ _ hmb, hc0]
    by_cases hcc : c = c'
    · subst hcc
      rw [getD_set_self_lt _ _ _ (by rw [hcl]; exact color_idx_lt c)]
      rw [show b.occ.colored.getD c.idx 0 = occColorOfMailbox b.mailbox c from hcol c]
      simp [cellOccColor, occColorOfMailbox]
    · rw [getD_set_ne_nat _ _ _ _ (color_idx_ne c c' hcc)]
      rw [show b.occ.colored.getD c'.idx 0 = occColorOfMailbox b.mailbox c' from hcol c']
      simp [cellOccColor, occColorOfMailbox, hcc]

/-- Replaying a cell list onto empty files of a consistent board: lengths
hold, other rows and earlier files are untouched, the written files carry the
cells, consistency is kept and the scalar state fields are untouched. -/
theorem placeCells_spec : ∀ (cells : List Cell) (y fx : Nat) (bb : Board),
    y ≤ 7 → fx + cells.length ≤ 8 →
    bb.mailbox.length = 64 → bb.bitboards.length = 12 → bb.occ.colored.length = 2 →
    (∀ j, fx ≤ j → j < fx + cells.length → bb.get_piece (mkSq j y) = none) →
    (∀ c' p', bb.get_bitboard c' p' = bbOfMailbox bb.mailbox c' p') →
    bb.occ.all = occAllOfMailbox bb.mailbox →
    (∀ c', bb.occ.colored.getD c'.idx 0 = occColorOfMailbox bb.mailbox c') →
    ((placeCells y cells fx bb).mailbox.length = 64 ∧
     (placeCells y cells fx bb).bitboards.length = 12 ∧
     (placeCells y cells fx bb).occ.colored.length = 2) ∧
    (∀ s : Square, s.y ≠ y → (placeCells y cells fx bb).get_piece s = bb.get_piece s) ∧
    (∀ j, j < fx →
      (placeCells y cells fx bb).get_piece (mkSq j y) = bb.get_piece (mkSq j y)) ∧
    (∀ j, j < cells.length →
      (placeCells y cells fx bb).get_piece (mkSq (fx + j) y) = cells.getD j none) ∧
    ((∀ c' p', (placeCells y cells fx bb).get_bitboard c' p' =
        bbOfMailbox (placeCells y cells fx bb).mailbox c' p') ∧
     (placeCells y cells fx bb).occ.all = occAllOfMailbox (placeCells y cells fx bb).mailbox ∧
     (∀ c', (placeCells y cells fx bb).occ.colored.getD c'.idx 0 =
        occColorOfMailbox (placeCells y cells fx bb).mailbox c')) ∧
    ((placeCells y cells fx bb).state.side_to_move = bb.state.side_to_move ∧
     (placeCells y cells fx bb).state.halfmove = bb.state.halfmove ∧
     (placeCells y cells fx bb).state.castle_rights = bb.state.castle_rights ∧
     (placeCells y cells fx bb).state.ep_square = bb.state.ep_square ∧
     (placeCells y cells fx bb).fullmove = bb.fullmove) := by
  intro cells
  induction cells with
  | nil =>
    intro y fx bb hy hfx hmb hbl hcl hrow hbb hall hcol
    exact ⟨⟨hmb, hbl, hcl⟩, fun _ _ => rfl, fun _ _ => rfl,
      fun j hj => absurd hj (Nat.not_lt_zero j), ⟨hbb, hall, hcol⟩,
      rfl, rfl, rfl, rfl, rfl⟩
  | cons cell rest ih =>
    intro y fx bb hy hfx hmb hbl hcl hrow hbb hall hcol
    have hfx8 : fx + 1 + rest.length ≤ 8 := by
      simp only [List.length_cons] at hfx
      omega
    match cell with
    | none =>
      obtain ⟨hL, hout, hpre, hcont, hcons, hsc⟩ := ih y (fx + 1) bb hy hfx8 hmb hbl hcl
        (fun j hj1 hj2 => hrow j (by omega) (by simp only [List.length_cons]; omega))
        hbb hall hcol
      refine ⟨hL, hout, ?_, ?_, hcons, hsc⟩
      · intro j hj
        exact hpre j (by omega)
      · intro j hj
        cases j with
        | zero =>
          show (placeCells y rest (fx + 1) bb).get_piece (mkSq fx y) = none
          rw [hpre fx (by omega)]
          exact hrow fx (le_refl fx) (by simp only [List.length_cons]; omega)
        | succ j =>
          have hrec := hcont j (by simp only [List.length_cons] at hj; omega)
          rw [show fx + (j + 1) = fx + 1 + j from by omega]
          exact hrec
    | some (c, p) =>
      have hcell : bb.get_piece (mkSq fx y) = none :=
        hrow fx (le_refl fx) (by simp only [List.length_cons]; omega)
      obtain ⟨hbl1, hcl1, hbb1, hall1, hcol1⟩ :=
        place_consistent true bb c p (mkSq fx y) hmb hbl hcl hcell hbb hall hcol
      have hmb1 : (bb.place_piece true c p (mkSq fx y)).mailbox.length = 64 := by
        rw [place_mailbox_length]
        exact hmb
      have hrow1 : ∀ j, fx + 1 ≤ j → j < fx + 1 + rest.length →
          (bb.place_piece true c p (mkSq fx y)).get_piece (mkSq j y) = none := by
        intro j hj1 hj2
        have hne : mkSq j y ≠ mkSq fx y := by
          simp only [mkSq, Ne, Fin.mk.injEq]
          omega
        rw [place_get_piece_ne _ _ _ _ _ _ hne]
        exact hrow j (by omega) (by simp only [List.length_cons]; omega)
      obtain ⟨hL, hout, hpre, hcont, hcons, hsc⟩ :=
        ih y (fx + 1) _ hy hfx8 hmb1 hbl1 hcl1 hrow1 hbb1 hall1 hcol1
      refine ⟨hL, ?_, ?_, ?_, hcons, hsc⟩
      · intro s hs
        show (placeCells y rest (fx + 1) (bb.place_piece true c p (mkSq fx y))).get_piece s =
          bb.get_piece s
        rw [hout s hs, place_get_piece_ne _ _ _ _ _ _
          (fun heq => hs (by rw [heq, mkSq_y]; omega))]
      · intro j hj
        show (placeCells y rest (fx + 1) (bb.place_piece true c p (mkSq fx y))).get_piece
            (mkSq j y) = bb.get_piece (mkSq j y)
        rw [hpre j (by omega), place_get_piece_ne _ _ _ _ _ _ (by
          simp only [mkSq, Ne, Fin.mk.injEq]
          omega)]
      · intro j hj
        cases j with
        | zero =>
          show (placeCells y rest (fx + 1) (bb.place_piece true c p (mkSq fx y))).get_piece
              (mkSq fx y) = some (c, p)
          rw [hpre fx (by omega),
            place_get_piece_self true bb c p (mkSq fx y) (by rw [hmb]; exact (mkSq fx y).isLt)]
        | succ j =>
          have hrec := hcont j (by simp only [List.length_cons] at hj; omega)
          rw [show fx + (j + 1) = fx + 1 + j from by omega]
          exact hrec

/-- The empty board the FEN parser starts from, carrying the scalar fields
that `from_str` has already read off the string. -/
def fenBase (b : Board) : Board :=
  { fullmove := b.fullmove,
    bitboards := List.replicate 12 0,
    mailbox := List.replicate 64 none,
    occ := { all := 0, colored := [0, 0] },
    state :=
      { side_to_move := b.state.side_to_move, halfmove := b.state.halfmove,
        checkers := 0, pinned := 0,
        castle_rights := b.state.castle_rights, ep_square := b.state.ep_square,
        zobrist := 0 },
    prev_states := [] }

/-- The empty mailbox induces empty piece bitboards. -/
theorem bbOfMailbox_empty : ∀ (c : Color) (p : Piece),
    bbOfMailbox (List.replicate 64 none) c p = 0 := by
  decide

/-- The empty mailbox induces an empty total occupancy. -/
theorem occAllOfMailbox_empty : occAllOfMailbox (List.replicate 64 none) = 0 := by
  decide

/-- The empty mailbox induces empty colored occupancies. -/
theorem occColorOfMailbox_empty : ∀ c, occColorOfMailbox (List.replicate 64 none) c = 0 := by
  decide

/-- Every cell of the parser's empty board is empty. -/
theorem fenBase_get_piece (b : Board) (s : Square) : (fenBase b).get_piece s = none := by
  simp only [fenBase, Board.get_piece, List.getD_eq_getElem?_getD, List.getElem?_replicate]
  split <;> rfl

/-- The cells of a rank read back the mailbox. -/
theorem rankCells_getD (b : Board) (y j : Nat) (h : j < 8) :
    (rankCells b y).getD j none = b.get_piece (mkSq j y) := by
  interval_cases j <;> rfl

/-- The first `k` replayed ranks of a board, walking rank 8 down: `placeFrom
b base k` has replayed ranks 7 down to `8 - k` onto `base`. -/
def placeFrom (b base : Board) : Nat → Board
  | 0 => base
  | k + 1 => placeCells (7 - k) (rankCells b (7 - k)) 0 (placeFrom b base k)

/-- After replaying the top `k` ranks onto the parser's empty board: the rows
already replayed agree with `b`, the rest are empty, the structure stays
consistent and the scalar fields are `b`'s. -/
theorem placeFrom_spec (b : Board) : ∀ k, k ≤ 8 →
    ((placeFrom b (fenBase b) k).mailbox.length = 64 ∧
     (placeFrom b (fenBase b) k).bitboards.length = 12 ∧
     (placeFrom b (fenBase b) k).occ.colored.length = 2) ∧
    (∀ s : Square, 8 - k ≤ s.y → (placeFrom b (fenBase b) k).get_piece s = b.get_piece s) ∧
    (∀ s : Square, s.y < 8 - k → (placeFrom b (fenBase b) k).get_piece s = none) ∧
    ((∀ c' p', (placeFrom b (fenBase b) k).get_bitboard c' p' =
        bbOfMailbox (placeFrom b (fenBase b) k).mailbox c' p') ∧
     (placeFrom b (fenBase b) k).occ.all = occAllOfMailbox (placeFrom b (fenBase b) k).mailbox ∧
     (∀ c', (placeFrom b (fenBase b) k).occ.colored.getD c'.idx 0 =
        occColorOfMailbox (placeFrom b (fenBase b) k).mailbox c')) ∧
    ((placeFrom b (fenBase b) k).state.side_to_move = b.state.side_to_move ∧
     (placeFrom b (fenBase b) k).state.halfmove = b.state.halfmove ∧
     (placeFrom b (fenBase b) k).state.castle_rights = b.state.castle_rights ∧
     (placeFrom b (fenBase b) k).state.ep_square = b.state.ep_square ∧
     (placeFrom b (fenBase b) k).fullmove = b.fullmove) := by
  intro k
  induction k with
  | zero =>
    intro _
    refine ⟨⟨by simp [placeFrom, fenBase], by simp [placeFrom, fenBase],
        by simp [placeFrom, fenBase]⟩, ?_, ?_, ⟨?_, ?_, ?_⟩, rfl, rfl, rfl, rfl, rfl⟩
    · intro s hs
      exact absurd hs (by have := sq_y_lt s; omega)
    · intro s _
      exact fenBase_get_piece b s
    · intro c' p'
      have h0 : bbOfMailbox ((placeFrom b (fenBase b) 0).mailbox) c' p' = 0 :=
        bbOfMailbox_empty c' p'
      rw [h0]
      cases c' <;> cases p' <;> rfl
    · exact occAllOfMailbox_empty.symm
    · intro c'
      cases c' <;> exact (occColorOfMailbox_empty _).symm
  | succ k ih =>
    intro hk
    obtain ⟨⟨hmb, hbl, hcl⟩, hdone, hempty, ⟨hbb, hall, hcol⟩, hsc⟩ := ih (by omega)
    have hy : 7 - k ≤ 7 := by omega
    have hrow : ∀ j, 0 ≤ j → j < 0 + (rankCells b (7 - k)).length →
        (placeFrom b (fenBase b) k).get_piece (mkSq j (7 - k)) = none := by
      intro j _ _
      apply hempty
      rw [mkSq_y]
      omega
    obtain ⟨hL, hout, hpre, hcont, hcons, hsc2⟩ :=
      placeCells_spec (rankCells b (7 - k)) (7 - k) 0 (placeFrom b (fenBase b) k)
        hy (by simp [rankCells]) hmb hbl hcl hrow hbb hall hcol
    refine ⟨hL, ?_, ?_, hcons, ?_⟩
    · intro s hs
      show (placeCells (7 - k) (rankCells b (7 - k)) 0 (placeFrom b (fenBase b) k)).get_piece s
        = b.get_piece s
      by_cases hsy : s.y = 7 - k
      · have hx8 := sq_x_lt s
        have hss : mkSq s.x (7 - k) = s := by
          rw [← hsy]
          exact mkSq_self s
        have hrec := hcont s.x (by simp only [rankCells, List.length_map, List.length_range]; omega)
        rw [Nat.zero_add, hss] at hrec
        rw [hrec, rankCells_getD b (7 - k) s.x hx8, hss]
      · rw [hout s hsy]
        exact hdone s (by omega)
    · intro s hs
      show (placeCells (7 - k) (rankCells b (7 - k)) 0 (placeFrom b (fenBase b) k)).get_piece s
        = none
      rw [hout s (by omega)]
      exact hempty s (by omega)
    · obtain ⟨a1, a2, a3, a4, a5⟩ := hsc2
      obtain ⟨b1, b2, b3, b4, b5⟩ := hsc
      exact ⟨a1.trans b1, a2.trans b2, a3.trans b3, a4.trans b4, a5.trans b5⟩

/-- Splitting the emitted board field on slashes recovers the eight rank
renderings, top rank first. -/
theorem boardField_split (b : Board) :
    splitOnChar '/' (boardFieldChars b) = [emitRankAux (rankCells b 7) 0, emitRankAux (rankCells b 6) 0, emitRankAux (rankCells b 5) 0, emitRankAux (rankCells b 4) 0, emitRankAux (rankCells b 3) 0, emitRankAux (rankCells b 2) 0, emitRankAux (rankCells b 1) 0, emitRankAux (rankCells b 0) 0] := by
  unfold boardFieldChars
  have hns : ∀ g ∈ ((List.range 8).reverse).map
      (fun y => emitRankAux (rankCells b y) 0), '/' ∉ g := by
    intro g hg
    rcases List.mem_map.mp hg with ⟨y, -, rfl⟩
    intro hmem
    exact (emitRank_no_sep b y '/' hmem).2 rfl
  rw [splitOnChar_joinSep '/' _ (by simp) hns]
  rw [show ((List.range 8).reverse) = [7, 6, 5, 4, 3, 2, 1, 0] from by decide]
  rfl

/-- One successful step of the placement fold. -/
theorem parsePlacement_cons_some (r : List Char) (rs : List (List Char)) (i : Nat)
    (bb b' : Board) (h : parseRankInto (7 - i) r 0 bb = some b') :
    parsePlacement (r :: rs) i bb = parsePlacement rs (i + 1) b' := by
  simp only [parsePlacement, h]

/-- Folding the eight emitted ranks into a board replays all eight rows. -/
theorem parsePlacement_emit (b base : Board) :
    parsePlacement [emitRankAux (rankCells b 7) 0, emitRankAux (rankCells b 6) 0, emitRankAux (rankCells b 5) 0, emitRankAux (rankCells b 4) 0, emitRankAux (rankCells b 3) 0, emitRankAux (rankCells b 2) 0, emitRankAux (rankCells b 1) 0, emitRankAux (rankCells b 0) 0] 0 base = some (placeFrom b base 8) := by
  have e0 : parsePlacement [emitRankAux (rankCells b 7) 0, emitRankAux (rankCells b 6) 0, emitRankAux (rankCells b 5) 0, emitRankAux (rankCells b 4) 0, emitRankAux (rankCells b 3) 0, emitRankAux (rankCells b 2) 0, emitRankAux (rankCells b 1) 0, emitRankAux (rankCells b 0) 0] 0 base
      = parsePlacement [emitRankAux (rankCells b 6) 0, emitRankAux (rankCells b 5) 0, emitRankAux (rankCells b 4) 0, emitRankAux (rankCells b 3) 0, emitRankAux (rankCells b 2) 0, emitRankAux (rankCells b 1) 0, emitRankAux (rankCells b 0) 0] 1 (placeFrom b base 1) :=
    parsePlacement_cons_some _ _ 0 _ _
      (parse_emitRank (rankCells b 7) 0 0 7 base (by simp [rankCells]))
  have e1 : parsePlacement [emitRankAux (rankCells b 6) 0, emitRankAux (rankCells b 5) 0, emitRankAux (rankCells b 4) 0, emitRankAux (rankCells b 3) 0, emitRankAux (rankCells b 2) 0, emitRankAux (rankCells b 1) 0, emitRankAux (rankCells b 0) 0] 1 (placeFrom b base 1)
      = parsePlacement [emitRankAux (rankCells b 5) 0, emitRankAux (rankCells b 4) 0, emitRankAux (rankCells b 3) 0, emitRankAux (rankCells b 2) 0, emitRankAux (rankCells b 1) 0, emitRankAux (rankCells b 0) 0] 2 (placeFrom b base 2) :=
    parsePlacement_cons_some _ _ 1 _ _
      (parse_emitRank (rankCells b 6) 0 0 6 (placeFrom b base 1) (by simp [rankCells]))
  have e2 : parsePlacement [emitRankAux (rankCells b 5) 0, emitRankAux (rankCells b 4) 0, emitRankAux (rankCells b 3) 0, emitRankAux (rankCells b 2) 0, emitRankAux (rankCells b 1) 0, emitRankAux (rankCells b 0) 0] 2 (placeFrom b base 2)
      = parsePlacement [emitRankAux (rankCells b 4) 0, emitRankAux (rankCells b 3) 0, emitRankAux (rankCells b 2) 0, emitRankAux (rankCells b 1) 0, emitRankAux (rankCells b 0) 0] 3 (placeFrom b base 3) :=
    parsePlacement_cons_some _ _ 2 _ _
      (parse_emitRank (rankCells b 5) 0 0 5 (placeFrom b base 2) (by simp [rankCells]))
  have e3 : parsePlacement [emitRankAux (rankCells b 4) 0, emitRankAux (rankCells b 3) 0, emitRankAux (rankCells b 2) 0, emitRankAux (rankCells b 1) 0, emitRankAux (rankCells b 0) 0] 3 (placeFrom b base 3)
      = parsePlacement [emitRankAux (rankCells b 3) 0, emitRankAux (rankCells b 2) 0, emitRankAux (rankCells b 1) 0, emitRankAux (rankCells b 0) 0] 4 (placeFrom b base 4) :=
    parsePlacement_cons_some _ _ 3 _ _
      (parse_emitRank (rankCells b 4) 0 0 4 (placeFrom b base 3) (by simp [rankCells]))
  have e4 : parsePlacement [emitRankAux (rankCells b 3) 0, emitRankAux (rankCells b 2) 0, emitRankAux (rankCells b 1) 0, emitRankAux (rankCells b 0) 0] 4 (placeFrom b base 4)
      = parsePlacement [emitRankAux (rankCells b 2) 0, emitRankAux (rankCells b 1) 0, emitRankAux (rankCells b 0) 0] 5 (placeFrom b base 5) :=
    parsePlacement_cons_some _ _ 4 _ _
      (parse_emitRank (rankCells b 3) 0 0 3 (placeFrom b base 4) (by simp [rankCells]))
  have e5 : parsePlacement [emitRankAux (rankCells b 2) 0, emitRankAux (rankCells b 1) 0, emitRankAux (rankCells b 0) 0] 5 (placeFrom b base 5)
      = parsePlacement [emitRankAux (rankCells b 1) 0, emitRankAux (rankCells b 0) 0] 6 (placeFrom b base 6) :=
    parsePlacement_cons_some _ _ 5 _ _
      (parse_emitRank (rankCells b 2) 0 0 2 (placeFrom b base 5) (by simp [rankCells]))
  have e6 : parsePlacement [emitRankAux (rankCells b 1) 0, emitRankAux (rankCells b 0) 0] 6 (placeFrom b base 6)
      = parsePlacement [emitRankAux (rankCells b 0) 0] 7 (placeFrom b base 7) :=
    parsePlacement_cons_some _ _ 6 _ _
      (parse_emitRank (rankCells b 1) 0 0 1 (placeFrom b base 6) (by simp [rankCells]))
  have e7 : parsePlacement [emitRankAux (rankCells b 0) 0] 7 (placeFrom b base 7)
      = parsePlacement [] 8 (placeFrom b base 8) :=
    parsePlacement_cons_some _ _ 7 _ _
      (parse_emitRank (rankCells b 0) 0 0 0 (placeFrom b base 7) (by simp [rankCells]))
  exact e0.trans (e1.trans (e2.trans (e3.trans (e4.trans (e5.trans (e6.trans
    (e7.trans rfl)))))))

/-- Parsing an emitted FEN succeeds and answers the replayed board with its
checkers and pinned masks recomputed. -/
theorem fromFen_toFen (b : Board) (hcr : b.state.castle_rights < 16)
    (hhm : b.state.halfmove < 256) (hfm : b.fullmove < 65536) :
    fromFen b.toFen = some
      { placeFrom b (fenBase b) 8 with
        state := { (placeFrom b (fenBase b) 8).state with
          checkers := (placeFrom b (fenBase b) 8).checkers,
          pinned := (placeFrom b (fenBase b) 8).pinned } } := by
  unfold fromFen
  rw [splitOnChar_toFen b hcr]
  dsimp only
  rw [color_roundtrip, cr_roundtrip _ hcr, ep_roundtrip,
    parseBoundedNat_natChars 256 _ hhm, parseBoundedNat_natChars 65536 _ hfm]
  dsimp only
  rw [boardField_split b]
  have hlen8 : ([emitRankAux (rankCells b 7) 0, emitRankAux (rankCells b 6) 0, emitRankAux (rankCells b 5) 0, emitRankAux (rankCells b 4) 0, emitRankAux (rankCells b 3) 0, emitRankAux (rankCells b 2) 0, emitRankAux (rankCells b 1) 0, emitRankAux (rankCells b 0) 0] : List (List Char)).length = 8 := rfl
  rw [if_pos hlen8]
  rw [parsePlacement_emit b]
  rfl

/-- Two 64-entry mailboxes agreeing on every square are equal. -/
theorem mailbox_ext (m1 m2 : List Cell) (h1 : m1.length = 64) (h2 : m2.length = 64)
    (h : ∀ s : Square, m1.getD s.val none = m2.getD s.val none) : m1 = m2 := by
  apply List.ext_getElem (h1.trans h2.symm)
  intro n hn1 hn2
  have hn : n < 64 := by omega
  have hs := h ⟨n, hn⟩
  rw [List.getD_eq_getElem?_getD, List.getD_eq_getElem?_getD,
    List.getElem?_eq_getElem hn1, List.getElem?_eq_getElem hn2] at hs
  simpa using hs

/-- Two equal-length lists of words agreeing entrywise are equal. -/
theorem natlist_ext (l1 l2 : List Nat) (n : Nat) (h1 : l1.length = n) (h2 : l2.length = n)
    (h : ∀ i, i < n → l1.getD i 0 = l2.getD i 0) : l1 = l2 := by
  apply List.ext_getElem (h1.trans h2.symm)
  intro m hm1 hm2
  have hm : m < n := by omega
  have hs := h m hm
  rw [List.getD_eq_getElem?_getD, List.getD_eq_getElem?_getD,
    List.getElem?_eq_getElem hm1, List.getElem?_eq_getElem hm2] at hs
  simpa using hs

/-- Every flat bitboard index below 12 names a colored piece. -/
theorem bb_index_cover : ∀ i : Fin 12, ∃ c : Color, ∃ p : Piece,
    c.idx * 6 + p.idx = i.val := by
  decide

/-- Every occupancy index below 2 names a color. -/
theorem color_index_cover : ∀ i : Fin 2, ∃ c : Color, c.idx = i.val := by
  decide

/-- Occupancies with equal fields are equal. -/
theorem occ_eq (o1 o2 : Occupancy) (h1 : o1.all = o2.all) (h2 : o1.colored = o2.colored) :
    o1 = o2 := by
  cases o1
  cases o2
  cases h1
  cases h2
  rfl

/-- C6: emitting a board as a FEN string and parsing it back yields a board
with the same bitboards, mailbox, occupancies, side to move, castle rights,
en-passant target, halfmove clock and fullmove counter.  The hypotheses state
the struct invariant every real board carries: 64/12/2-entry arrays,
bitboards and occupancies agreeing with the mailbox, and in-range scalar
fields (the clocks are u8/u16 and the rights a 4-bit set in the source). -/
theorem c6_fen_round_trip (b : Board)
    (hmb : b.mailbox.length = 64) (hbl : b.bitboards.length = 12)
    (hcl : b.occ.colored.length = 2)
    (hbb : ∀ c p, b.get_bitboard c p = bbOfMailbox b.mailbox c p)
    (hall : b.occ.all = occAllOfMailbox b.mailbox)
    (hcol : ∀ c, b.occ.colored.getD c.idx 0 = occColorOfMailbox b.mailbox c)
    (hcr : b.state.castle_rights < 16) (hhm : b.state.halfmove < 256)
    (hfm : b.fullmove < 65536) :
    ∃ b2, fromFen b.toFen = some b2 ∧
      b2.bitboards = b.bitboards ∧ b2.mailbox = b.mailbox ∧ b2.occ = b.occ ∧
      b2.state.side_to_move = b.state.side_to_move ∧
      b2.state.castle_rights = b.state.castle_rights ∧
      b2.state.ep_square = b.state.ep_square ∧
      b2.state.halfmove = b.state.halfmove ∧
      b2.fullmove = b.fullmove := by
  obtain ⟨⟨pmb, pbl, pcl⟩, pdone, -, ⟨pbb, pall, pcol⟩, psc⟩ := placeFrom_spec b 8 (le_refl 8)
  have hmbeq : (placeFrom b (fenBase b) 8).mailbox = b.mailbox := by
    apply mailbox_ext _ _ pmb hmb
    intro s
    exact pdone s (by omega)
  refine ⟨_, fromFen_toFen b hcr hhm hfm, ?_, hmbeq, ?_, psc.1, psc.2.2.1, psc.2.2.2.1,
    psc.2.1, psc.2.2.2.2⟩
  · apply natlist_ext _ _ 12 pbl hbl
    intro i hi
    obtain ⟨c, p, hcp⟩ := bb_index_cover ⟨i, hi⟩
    have hcp2 : c.idx * 6 + p.idx = i := hcp
    rw [← hcp2]
    calc (placeFrom b (fenBase b) 8).bitboards.getD (c.idx * 6 + p.idx) 0
        = bbOfMailbox (placeFrom b (fenBase b) 8).mailbox c p := pbb c p
      _ = bbOfMailbox b.mailbox c p := by rw [hmbeq]
      _ = b.bitboards.getD (c.idx * 6 + p.idx) 0 := (hbb c p).symm
  · apply occ_eq
    · calc (placeFrom b (fenBase b) 8).occ.all
          = occAllOfMailbox (placeFrom b (fenBase b) 8).mailbox := pall
        _ = occAllOfMailbox b.mailbox := by rw [hmbeq]
        _ = b.occ.all := hall.symm
    · apply natlist_ext _ _ 2 pcl hcl
      intro i hi
      obtain ⟨c, hc⟩ := color_index_cover ⟨i, hi⟩
      have hc2 : c.idx = i := hc
      rw [← hc2]
      calc (placeFrom b (fenBase b) 8).occ.colored.getD c.idx 0
          = occColorOfMailbox (placeFrom b (fenBase b) 8).mailbox c := pcol c
        _ = occColorOfMailbox b.mailbox c := by rw [hmbeq]
        _ = b.occ.colored.getD c.idx 0 := (hcol c).symm

/-- C6, witness: the start position round-trips through its FEN. -/
theorem c6_fen_round_trip_witness :
    ∃ b2, fromFen startBoard.toFen = some b2 ∧
      b2.bitboards = startBoard.bitboards ∧ b2.mailbox = startBoard.mailbox ∧
      b2.occ = startBoard.occ ∧
      b2.state.side_to_move = startBoard.state.side_to_move ∧
      b2.state.castle_rights = startBoard.state.castle_rights ∧
      b2.state.ep_square = startBoard.state.ep_square ∧
      b2.state.halfmove = startBoard.state.halfmove ∧
      b2.fullmove = startBoard.fullmove :=
  c6_fen_round_trip startBoard (by decide) (by decide) (by decide) (by decide) (by decide)
    (by decide) (by decide) (by decide) (by decide)

end Rush
